import Mathlib

/-!
Verification development for the SuperCalc expression evaluator (src/main.cpp).

The program's pipeline is normalize (preprocessFuncCalls) → tokenize (Lexer) →
parse to postfix (toRPN) → evaluate (evalRPN) against a mutable Environment.
Every definition below is a shallow embedding of the corresponding C++ code;
IEEE-754 doubles are modelled as exact rationals (ℚ), and the transcendental
functions from the C math library (which is not part of the repository source)
are modelled from the spec where noted.  Strings are modelled as List Char.
-/

set_option maxHeartbeats 1000000

attribute [local semireducible] Rat.add Rat.sub Rat.mul Rat.inv Rat.ofScientific

deriving instance DecidableEq for Except

namespace SuperCalc

/-! Character classification, modelling the C locale functions used in main.cpp. -/

/-- C isspace in the default locale (space, tab, newline, vertical tab, form feed,
carriage return - code points 32 and 9 through 13). -/
def isspaceC (c : Char) : Bool := c.toNat == 32 || (9 ≤ c.toNat && c.toNat ≤ 13)

/-- C isdigit (code points 48 through 57). -/
def isdigitC (c : Char) : Bool := 48 ≤ c.toNat && c.toNat ≤ 57

/-- C isalpha in the default locale (code points 65-90 and 97-122). -/
def isalphaC (c : Char) : Bool :=
  (65 ≤ c.toNat && c.toNat ≤ 90) || (97 ≤ c.toNat && c.toNat ≤ 122)

/-- C isalnum in the default locale. -/
def isalnumC (c : Char) : Bool := isalphaC c || isdigitC c

/-- Lexer::isIdentStart (main.cpp line 27). -/
def isIdentStart (c : Char) : Bool := isalphaC c || c == '_'

/-- Lexer::isIdentChar (main.cpp line 28). -/
def isIdentChar (c : Char) : Bool := isalnumC c || c == '_'

/-! Tokens.  TokType::End is represented by the end of the token list: the C++
lexer returns an End token exactly when the cursor reaches end of input, and
toRPN's loop stops there. -/

/-- TokType together with each token's payload (main.cpp lines 20-21). -/
inductive Tok where
  | number (v : ℚ)
  | ident (s : String)
  | lparen
  | rparen
  | comma
  | plus
  | minus
  | star
  | slash
  | caret
  | assign
deriving DecidableEq, Repr

/-- Numeric value of one ASCII digit. -/
def digitVal (c : Char) : ℕ := c.toNat - 48

/-- Value of a digit string read in base 10. -/
def natOfDigits (l : List Char) : ℕ := l.foldl (fun a c => 10 * a + digitVal c) 0

/-- Modelled from the spec: strtod from the C library (not part of src/) decodes the
scanned numeric span (digits, at most one dot, optional exponent with optional sign);
it is modelled exactly over ℚ.  The lexer only ever passes spans of that shape. -/
def parseNum (l : List Char) : ℚ :=
  let mant := l.takeWhile (fun c => !(c == 'e' || c == 'E'))
  let ex := l.dropWhile (fun c => !(c == 'e' || c == 'E'))
  let ip := mant.takeWhile (fun c => !(c == '.'))
  let fp := (mant.dropWhile (fun c => !(c == '.'))).drop 1
  let base : ℚ := (natOfDigits ip : ℚ) + (natOfDigits fp : ℚ) / 10 ^ fp.length
  match ex with
  | [] => base
  | _ :: r =>
    match r with
    | '-' :: rr => base * (10 : ℚ) ^ (-(natOfDigits rr : ℤ))
    | '+' :: rr => base * (10 : ℚ) ^ ((natOfDigits rr : ℤ))
    | _ => base * (10 : ℚ) ^ ((natOfDigits r : ℤ))

/-- Digit-and-dot scan of Lexer::next (main.cpp line 38): consume digits, and a dot
only while no dot has been seen.  Returns the consumed span and the rest. -/
def scanMant : Bool → List Char → List Char × List Char
  | _, [] => ([], [])
  | seenDot, c :: cs =>
    if isdigitC c then
      let r := scanMant seenDot cs
      (c :: r.1, r.2)
    else if !seenDot && c == '.' then
      let r := scanMant true cs
      (c :: r.1, r.2)
    else ([], c :: cs)

/-- Exponent scan of Lexer::next (main.cpp lines 40-44): an e/E marker with optional
sign is consumed exactly when at least one digit follows; otherwise nothing is
consumed and the marker is left in the rest. -/
def scanExpPart : List Char → List Char × List Char
  | [] => ([], [])
  | c :: cs =>
    if c == 'e' || c == 'E' then
      match cs with
      | [] => ([], [c])
      | s :: rr =>
        if s == '+' || s == '-' then
          let digs := rr.takeWhile isdigitC
          if digs.isEmpty then ([], c :: s :: rr)
          else (c :: s :: digs, rr.dropWhile isdigitC)
        else
          let digs := (s :: rr).takeWhile isdigitC
          if digs.isEmpty then ([], c :: s :: rr)
          else (c :: digs, (s :: rr).dropWhile isdigitC)
    else ([], c :: cs)

/-- Result of one Lexer::next call. -/
inductive LexRes where
  | endOfInput
  | badChar (c : Char)
  | tok (t : Tok) (rest : List Char)
deriving DecidableEq, Repr

/-- Single-character punctuation dispatch: the switch of Lexer::next (main.cpp lines 53-64). -/
def symTok (c : Char) : Option Tok :=
  if c == '(' then some .lparen
  else if c == ')' then some .rparen
  else if c == ',' then some .comma
  else if c == '+' then some .plus
  else if c == '-' then some .minus
  else if c == '*' then some .star
  else if c == '/' then some .slash
  else if c == '^' then some .caret
  else if c == '=' then some .assign
  else none

/-- Lexer::next (main.cpp lines 30-65) acting on the remaining input. -/
def nextTok : List Char → LexRes
  | [] => .endOfInput
  | c :: cs =>
    if isspaceC c then nextTok cs
    else if isdigitC c || c == '.' then
      .tok
        (.number (parseNum
          (c :: ((scanMant (c == '.') cs).1 ++ (scanExpPart (scanMant (c == '.') cs).2).1))))
        (scanExpPart (scanMant (c == '.') cs).2).2
    else if isIdentStart c then
      .tok (.ident (String.mk (c :: cs.takeWhile isIdentChar))) (cs.dropWhile isIdentChar)
    else
      match symTok c with
      | some t => .tok t cs
      | none => .badChar c

/-- Error taxonomy of the pipeline: each constructor corresponds to one distinct
runtime_error message thrown by main.cpp (outOfFuel is a modelling artifact of the
fuelled recursions; it is never reached at the fuel the wrappers supply). -/
inductive Err where
  | lexError (c : Char)
  | unbalancedParens
  | misplacedComma
  | unexpectedToken
  | unknownOperator (s : String)
  | invalidAssignment
  | undefinedVariable (s : String)
  | missingArgument (s : String)
  | stackUnderflow (s : String)
  | divisionByZero
  | invalidExprInAssign
  | invalidExpression
  | outOfFuel
deriving DecidableEq, Repr

/-- Repeated Lexer::next until End, with fuel (each call consumes at least one char). -/
def tokAux : ℕ → List Char → Except Err (List Tok)
  | 0, _ => .error .outOfFuel
  | fuel + 1, l =>
    match nextTok l with
    | .endOfInput => .ok []
    | .badChar c => .error (.lexError c)
    | .tok t r => (tokAux fuel r).map (fun ts => t :: ts)

/-- The token stream of a line, as consumed by toRPN's token loop. -/
def tokenize (l : List Char) : Except Err (List Tok) := tokAux (l.length + 1) l

/-! Operator table and postfix nodes. -/

/-- OpInfo (main.cpp line 69). -/
structure OpInfo where
  prec : ℕ
  rightAssoc : Bool
  arity : ℕ
deriving DecidableEq, Repr

/-- The static OP table (main.cpp lines 71-74), keyed by operator symbol. -/
def OP : String → Option OpInfo
  | "+" => some ⟨1, false, 2⟩
  | "-" => some ⟨1, false, 2⟩
  | "*" => some ⟨2, false, 2⟩
  | "/" => some ⟨2, false, 2⟩
  | "^" => some ⟨3, true, 2⟩
  | "u-" => some ⟨4, true, 1⟩
  | _ => none

/-- Node (main.cpp lines 76-79): one postfix instruction.  The argc field of the C++
struct is never read and is omitted; KFunc is never constructed by toRPN (it is only
tested for) and is kept for faithfulness. -/
inductive Node where
  | num (v : ℚ)
  | var (s : String)
  | op (s : String)
  | func (s : String)
  | argSep
  | assign
deriving DecidableEq, Repr

/-- isOpTok (main.cpp line 81). -/
def isOpTok : Tok → Bool
  | .plus => true
  | .minus => true
  | .star => true
  | .slash => true
  | .caret => true
  | _ => false

/-- Parser state of toRPN: output list, operator stack (its head is the stack top),
and the previous token (none models the initial Token with TokType::End). -/
structure PState where
  out : List Node
  ops : List Node
  prev : Option Tok
deriving DecidableEq, Repr

/-- The unary-minus context test of toRPN (main.cpp line 108): the previous token is
absent (start of line), a left paren, a comma, an operator, or the assignment sign. -/
def isUnaryCtx : Option Tok → Bool
  | none => true
  | some t => t == .lparen || t == .comma || isOpTok t || t == .assign

/-- The operator-symbol string chosen in toRPN (main.cpp line 107). -/
def opSym : Tok → String
  | .plus => "+"
  | .minus => "-"
  | .star => "*"
  | .slash => "/"
  | _ => "^"

/-- The pop condition of toRPN's operator loop (main.cpp lines 111-114) for an
arriving operator oi against one stack node: the node is a KOp whose symbol is in OP
(isTopOp) and the precedence comparison fires.  A KFunc or "(" top, or a KAssign,
makes it false, which breaks the loop. -/
def popsP (oi : OpInfo) (n : Node) : Bool :=
  match n with
  | .op t =>
    match OP t with
    | some top =>
      if oi.rightAssoc then decide (oi.prec < top.prec) else decide (oi.prec ≤ top.prec)
    | none => false
  | _ => false

/-- The operator-pop loop of toRPN's operator case (main.cpp lines 111-116): pop to
the output while the condition fires, stop otherwise. -/
def popOps (oi : OpInfo) : List Node → List Node → List Node × List Node
  | [], out => ([], out)
  | n :: rest, out =>
    if popsP oi n then popOps oi rest (out ++ [n]) else (n :: rest, out)

/-- The pop-to-paren loop of toRPN's right-paren case (main.cpp lines 98-100); none
models the unbalanced-parens throw when no "(" marker is on the stack. -/
def popToParen : List Node → List Node → Option (List Node × List Node)
  | [], _ => none
  | n :: rest, out =>
    if n = .op "(" then some (rest, out)
    else popToParen rest (out ++ [n])

/-- The pop loop of toRPN's comma case (main.cpp lines 90-92): pop until an argument
separator or a "(" marker is on top, or the stack runs out. -/
def popComma : List Node → List Node → List Node × List Node
  | [], out => ([], out)
  | n :: rest, out =>
    if n = .argSep then (n :: rest, out)
    else if n = .op "(" then (n :: rest, out)
    else popComma rest (out ++ [n])

/-- One iteration of toRPN's token loop (main.cpp lines 86-123), prev updated last
(line 122). -/
def parseTok (st : PState) (tok : Tok) : Except Err PState :=
  match tok with
  | .number v => .ok ⟨st.out ++ [.num v], st.ops, some tok⟩
  | .ident s => .ok ⟨st.out ++ [.var s], st.ops, some tok⟩
  | .comma =>
    let pr := popComma st.ops st.out
    if pr.1.isEmpty then .error .misplacedComma
    else .ok ⟨pr.2 ++ [.argSep], pr.1, some tok⟩
  | .lparen => .ok ⟨st.out, .op "(" :: st.ops, some tok⟩
  | .rparen =>
    match popToParen st.ops st.out with
    | none => .error .unbalancedParens
    | some (rest, out) =>
      match rest with
      | .func f :: rest2 => .ok ⟨out ++ [.func f], rest2, some tok⟩
      | _ => .ok ⟨out, rest, some tok⟩
  | .assign => .ok ⟨st.out, .assign :: st.ops, some tok⟩
  | _ =>
    let sym := if isUnaryCtx st.prev && opSym tok == "-" then "u-" else opSym tok
    match OP sym with
    | some oi =>
      let pr := popOps oi st.ops st.out
      .ok ⟨pr.2, .op sym :: pr.1, some tok⟩
    | none => .error (.unknownOperator sym)

/-- toRPN's token loop over the whole token stream. -/
def parseRun : PState → List Tok → Except Err PState
  | st, [] => .ok st
  | st, t :: ts =>
    match parseTok st t with
    | .error e => .error e
    | .ok st2 => parseRun st2 ts

/-- The final stack flush of toRPN (main.cpp lines 125-128): a remaining "(" marker is
an unbalanced-parens error, everything else is popped to the output. -/
def flushOps : List Node → List Node → Except Err (List Node)
  | [], out => .ok out
  | n :: rest, out =>
    if n = .op "(" then .error .unbalancedParens
    else flushOps rest (out ++ [n])

/-- toRPN (main.cpp lines 83-130): lex and shunting-yard parse one line into postfix.
The C++ lexes lazily inside the parse loop; here the line is tokenized first, which
agrees except possibly for which error is reported on a line that contains both a lex
error and an earlier parse error. -/
def toRPN (line : List Char) : Except Err (List Node) :=
  match tokenize line with
  | .error e => .error e
  | .ok ts =>
    match parseRun ⟨[], [], none⟩ ts with
    | .error e => .error e
    | .ok st => flushOps st.ops st.out

/-! Environment and function tables.  The C math library is not part of the
repository's source; its functions are modelled from the spec as noted. -/

/-- Modelled from the spec: the constant pi = acos(-1.0) (C math library, not in
src/); transcendental, represented by a fixed rational stand-in on whose exact value
no claim depends. -/
def piQ : ℚ := 3.141592653589793

/-- Modelled from the spec: the constant e = exp(1.0) (C math library, not in src/). -/
def eQ : ℚ := 2.718281828459045

/-- Env (main.cpp lines 133-137): the variable store (unordered_map modelled as an
association list) plus the display-precision field. -/
structure Env where
  vars : List (String × ℚ)
  precision : Int
deriving DecidableEq, Repr

/-- A freshly constructed Env, pre-seeded with pi and e (main.cpp line 136). -/
def env0 : Env := ⟨[("pi", piQ), ("e", eQ)], 10⟩

/-- unordered_map::find on the variable store. -/
def lookupVar (env : Env) (name : String) : Option ℚ :=
  (env.vars.find? (fun p => p.1 == name)).map (fun p => p.2)

/-- The write env.vars[name] = v (main.cpp line 207): update in place when the key
exists, append a new binding otherwise. -/
def setVar (env : Env) (name : String) (v : ℚ) : Env :=
  if (env.vars.find? (fun p => p.1 == name)).isSome then
    ⟨env.vars.map (fun p => if p.1 == name then (p.1, v) else p), env.precision⟩
  else ⟨env.vars ++ [(name, v)], env.precision⟩

/-- Modelled from the spec: sin (C math library, not in src/).  Transcendental, hence
not representable over ℚ; only table membership and application order matter to the
claims, so a fixed stand-in value is used. -/
def sinQ (_ : ℚ) : ℚ := 0

/-- Modelled from the spec: cos (C math library); stand-in, as for sin. -/
def cosQ (_ : ℚ) : ℚ := 0

/-- Modelled from the spec: tan (C math library); stand-in. -/
def tanQ (_ : ℚ) : ℚ := 0

/-- Modelled from the spec: asin (C math library); stand-in. -/
def asinQ (_ : ℚ) : ℚ := 0

/-- Modelled from the spec: acos (C math library); stand-in. -/
def acosQ (_ : ℚ) : ℚ := 0

/-- Modelled from the spec: atan (C math library); stand-in. -/
def atanQ (_ : ℚ) : ℚ := 0

/-- Largest k at most the second argument with k * k at most n (a structurally
recursive integer square root, used by the sqrt model). -/
def natSqrtAux (n : ℕ) : ℕ → ℕ
  | 0 => 0
  | k + 1 => if (k + 1) * (k + 1) ≤ n then k + 1 else natSqrtAux n k

/-- Integer square root by downward search. -/
def natSqrt (n : ℕ) : ℕ := natSqrtAux n n

/-- Modelled from the spec: sqrt (C math library); exact on perfect rational squares,
stand-in 0 elsewhere. -/
def sqrtQ (a : ℚ) : ℚ :=
  if 0 ≤ a ∧ natSqrt a.num.toNat ^ 2 = a.num.toNat ∧ natSqrt a.den ^ 2 = a.den then
    (natSqrt a.num.toNat : ℚ) / (natSqrt a.den : ℚ)
  else 0

/-- Modelled from the spec: cbrt (C math library); stand-in. -/
def cbrtQ (_ : ℚ) : ℚ := 0

/-- Modelled from the spec: exp (C math library); stand-in. -/
def expQ (_ : ℚ) : ℚ := 0

/-- fabs (C math library): exact over ℚ. -/
def fabsQ (a : ℚ) : ℚ := |a|

/-- floor (C math library): exact over ℚ. -/
def floorQ (a : ℚ) : ℚ := (⌊a⌋ : ℤ)

/-- ceil (C math library): exact over ℚ. -/
def ceilQ (a : ℚ) : ℚ := (⌈a⌉ : ℤ)

/-- round (C math library): round half away from zero; exact over ℚ. -/
def roundQ (a : ℚ) : ℚ := if 0 ≤ a then (⌊a + 1 / 2⌋ : ℤ) else (⌈a - 1 / 2⌉ : ℤ)

/-- Modelled from the spec: log (C math library); stand-in. -/
def lnQ (_ : ℚ) : ℚ := 0

/-- Modelled from the spec: log10 (C math library); stand-in. -/
def log10Q (_ : ℚ) : ℚ := 0

/-- Modelled from the spec: pow (C math library); exact for integer exponents,
stand-in 0 for fractional ones. -/
def powQ (a b : ℚ) : ℚ := if b.den = 1 then a ^ b.num else 0

/-- The static unary function table UF (main.cpp lines 142-148). -/
def UF : String → Option (ℚ → ℚ)
  | "sin" => some sinQ
  | "cos" => some cosQ
  | "tan" => some tanQ
  | "asin" => some asinQ
  | "acos" => some acosQ
  | "atan" => some atanQ
  | "sqrt" => some sqrtQ
  | "cbrt" => some cbrtQ
  | "exp" => some expQ
  | "abs" => some fabsQ
  | "floor" => some floorQ
  | "ceil" => some ceilQ
  | "round" => some roundQ
  | "ln" => some lnQ
  | "log" => some lnQ
  | "log10" => some log10Q
  | _ => none

/-- The static binary function table BF (main.cpp lines 150-152). -/
def BF : String → Option (ℚ → ℚ → ℚ)
  | "pow" => some powQ
  | _ => none

/-- applyOp (main.cpp lines 154-165).  The list's head is the stack top (st.back());
the next element is st[st.size()-2].  The C++ indexes without a size check because
evalRPN verifies the arity first; the short-stack fallthroughs here are unreachable
from evalRPN and share the unknown-operator error. -/
def applyOp : String → List ℚ → Except Err ℚ
  | "u-", b :: _ => .ok (-b)
  | "+", b :: a :: _ => .ok (a + b)
  | "-", b :: a :: _ => .ok (a - b)
  | "*", b :: a :: _ => .ok (a * b)
  | "/", b :: a :: _ => if b = 0 then .error .divisionByZero else .ok (a / b)
  | "^", b :: a :: _ => .ok (powQ a b)
  | s, _ => .error (.unknownOperator s)

/-- The node-evaluation loop shared verbatim by both branches of evalRPN (main.cpp
lines 177-205 and 213-240): KNum pushes; KVar resolves against the unary table, then
the binary table, then the environment; KOp checks the arity, applies, pops and
pushes.  Node kinds with no else-if branch (KFunc, KArgSep, KAssign) are skipped. -/
def evalNodes (env : Env) : List Node → List ℚ → Except Err (List ℚ)
  | [], st => .ok st
  | .num v :: rest, st => evalNodes env rest (v :: st)
  | .var s :: rest, st =>
    match UF s with
    | some f =>
      match st with
      | [] => .error (.missingArgument s)
      | a :: st2 => evalNodes env rest (f a :: st2)
    | none =>
      match BF s with
      | some g =>
        match st with
        | b :: a :: st2 => evalNodes env rest (g a b :: st2)
        | _ => .error (.missingArgument s)
      | none =>
        match lookupVar env s with
        | some v => evalNodes env rest (v :: st)
        | none => .error (.undefinedVariable s)
  | .op s :: rest, st =>
    if st.length < (if s = "u-" then 1 else 2) then .error (.stackUnderflow s)
    else
      match applyOp s st with
      | .error e => .error e
      | .ok res => evalNodes env rest (res :: st.drop (if s = "u-" then 1 else 2))
  | _ :: rest, st => evalNodes env rest st

/-- Does any node of the sequence have kind KAssign (main.cpp line 169)? -/
def hasAssign (rpn : List Node) : Bool := rpn.any (fun n => n == .assign)

/-- evalRPN (main.cpp lines 168-243).  The C++ mutates env in place and throws on
error; modelled by returning the result together with the final environment.  env is
written at exactly one place (line 207), after the whole right-hand side evaluated to
a single value. -/
def evalRPN (rpn : List Node) (env : Env) : Except Err ℚ × Env :=
  if hasAssign rpn then
    match rpn with
    | .var name :: .assign :: rhs =>
      if rhs.isEmpty then (.error .invalidAssignment, env)
      else
        match evalNodes env rhs [] with
        | .error e => (.error e, env)
        | .ok st =>
          match st with
          | [v] => (.ok v, setVar env name v)
          | _ => (.error .invalidExprInAssign, env)
    | _ => (.error .invalidAssignment, env)
  else
    match evalNodes env rpn [] with
    | .error e => (.error e, env)
    | .ok st =>
      match st with
      | [v] => (.ok v, env)
      | _ => (.error .invalidExpression, env)

/-! The call normalizer. -/

/-- The argument scan of preprocessFuncCalls (main.cpp lines 254-263): walk from the
call's opening paren tracking the nesting depth (int in C++, ℤ here); split at
depth-1 commas; characters at depth two or more are copied verbatim into the current
argument; finish when the depth returns to zero, yielding the argument texts and the
input after the closing paren.  none models falling off the end with the depth
nonzero (the unbalanced-parens throw at line 264). -/
def scanArgs : ℤ → List Char → List (List Char) → List Char →
    Option (List (List Char) × List Char)
  | _, _, _, [] => none
  | depth, cur, args, c :: rest =>
    if c = '(' then
      scanArgs (depth + 1) (if depth + 1 > 1 then cur ++ [c] else cur) args rest
    else if c = ')' then
      if depth - 1 = 0 then some (args ++ [cur], rest)
      else scanArgs (depth - 1) (cur ++ [c]) args rest
    else if c = ',' ∧ depth = 1 then
      scanArgs depth [] (args ++ [cur]) rest
    else scanArgs depth (cur ++ [c]) args rest

/-- The space-joining of raw argument texts (main.cpp line 266). -/
def joinArgs : List (List Char) → List Char
  | [] => []
  | [a] => a
  | a :: rest => a ++ ' ' :: joinArgs rest

/-- preprocessFuncCalls (main.cpp lines 246-275), fuelled (each step consumes input,
so the wrapper's fuel always suffices).  An identifier followed, after optional
whitespace, by an opening paren is rewritten to "(arg1 arg2 ...) name" and scanning
resumes after the call; otherwise one character is copied and the scan advances by
one, exactly as in the C++ loop (which re-scans the identifier at its next position). -/
def preAux : ℕ → List Char → Except Err (List Char)
  | 0, _ => .error .outOfFuel
  | _ + 1, [] => .ok []
  | fuel + 1, c :: cs =>
    if isalphaC c || c == '_' then
      let afterSp := (cs.dropWhile isIdentChar).dropWhile isspaceC
      match afterSp with
      | '(' :: _ =>
        match scanArgs 0 [] [] afterSp with
        | none => .error .unbalancedParens
        | some (args, after) =>
          match preAux fuel after with
          | .error e => .error e
          | .ok done =>
            .ok ('(' :: joinArgs args ++ ')' :: ' ' :: (c :: cs.takeWhile isIdentChar) ++ done)
      | _ =>
        match preAux fuel cs with
        | .error e => .error e
        | .ok done => .ok (c :: done)
    else
      match preAux fuel cs with
      | .error e => .error e
      | .ok done => .ok (c :: done)

/-- preprocessFuncCalls on a whole line. -/
def preprocessFuncCalls (line : List Char) : Except Err (List Char) :=
  preAux (line.length + 1) line

/-- The evaluate entry point of the spec (the try block of main, main.cpp lines
309-313): normalize, tokenize and parse, evaluate.  The environment passes through
unchanged on every error path. -/
def evaluate (line : List Char) (env : Env) : Except Err ℚ × Env :=
  match preprocessFuncCalls line with
  | .error e => (.error e, env)
  | .ok pre =>
    match toRPN pre with
    | .error e => (.error e, env)
    | .ok rpn => evalRPN rpn env

/-! Spec-side material: a grammar of variable-free arithmetic expressions, its
reference semantics under the operator-precedence table, precedence-aware printers,
and the postfix compilation the parser is proved to produce. -/

/-- Abstract syntax of variable-free arithmetic expressions.  A literal carries its
surface digit string, so the grammar generates exactly the integer-literal forms. -/
inductive Expr where
  | num (ds : List Char)
  | neg (a : Expr)
  | add (a b : Expr)
  | sub (a b : Expr)
  | mul (a b : Expr)
  | div (a b : Expr)
  | pow (a b : Expr)
deriving DecidableEq, Repr

/-- Well-formed expression: every literal is a nonempty digit string. -/
def wfE : Expr → Bool
  | .num ds => !ds.isEmpty && ds.all isdigitC
  | .neg a => wfE a
  | .add a b => wfE a && wfE b
  | .sub a b => wfE a && wfE b
  | .mul a b => wfE a && wfE b
  | .div a b => wfE a && wfE b
  | .pow a b => wfE a && wfE b

/-- Reference semantics of the tree: operands evaluate left to right, division fails
exactly on a zero right operand, and power goes through the same pow model the
evaluator uses. -/
def denoteE : Expr → Except Err ℚ
  | .num ds => .ok (parseNum ds)
  | .neg a =>
    match denoteE a with
    | .error e => .error e
    | .ok x => .ok (-x)
  | .add a b =>
    match denoteE a with
    | .error e => .error e
    | .ok x =>
      match denoteE b with
      | .error e => .error e
      | .ok y => .ok (x + y)
  | .sub a b =>
    match denoteE a with
    | .error e => .error e
    | .ok x =>
      match denoteE b with
      | .error e => .error e
      | .ok y => .ok (x - y)
  | .mul a b =>
    match denoteE a with
    | .error e => .error e
    | .ok x =>
      match denoteE b with
      | .error e => .error e
      | .ok y => .ok (x * y)
  | .div a b =>
    match denoteE a with
    | .error e => .error e
    | .ok x =>
      match denoteE b with
      | .error e => .error e
      | .ok y => if y = 0 then .error .divisionByZero else .ok (x / y)
  | .pow a b =>
    match denoteE a with
    | .error e => .error e
    | .ok x =>
      match denoteE b with
      | .error e => .error e
      | .ok y => .ok (powQ x y)

/-- Postfix compilation of the tree: left operand, then right operand, then the
operator node. -/
def compileE : Expr → List Node
  | .num ds => [.num (parseNum ds)]
  | .neg a => compileE a ++ [.op "u-"]
  | .add a b => compileE a ++ compileE b ++ [.op "+"]
  | .sub a b => compileE a ++ compileE b ++ [.op "-"]
  | .mul a b => compileE a ++ compileE b ++ [.op "*"]
  | .div a b => compileE a ++ compileE b ++ [.op "/"]
  | .pow a b => compileE a ++ compileE b ++ [.op "^"]

/-- Syntactic precedence levels of the code's grammar, read off the OP table: unary
minus (4) binds tightest, then caret (3), then star and slash (2), then plus and
minus (1); literals are atoms (5). -/
def precE : Expr → ℕ
  | .num _ => 5
  | .neg _ => 4
  | .pow _ _ => 3
  | .mul _ _ => 2
  | .div _ _ => 2
  | .add _ _ => 1
  | .sub _ _ => 1

/-- Optional parenthesization of a rendered fragment. -/
def paren (b : Bool) (l : List Char) : List Char := if b then '(' :: l ++ [')'] else l

/-- Precedence-aware printer of the code's grammar: printE e p renders e in a context
admitting operators of precedence at least p, parenthesizing when e's level is lower.
A whole line is printE e 1. -/
def printE : Expr → ℕ → List Char
  | .num ds, _ => ds
  | .neg a, p => paren (decide (4 < p)) ('-' :: printE a 4)
  | .add a b, p => paren (decide (1 < p)) (printE a 1 ++ '+' :: printE b 2)
  | .sub a b, p => paren (decide (1 < p)) (printE a 1 ++ '-' :: printE b 2)
  | .mul a b, p => paren (decide (2 < p)) (printE a 2 ++ '*' :: printE b 3)
  | .div a b, p => paren (decide (2 < p)) (printE a 2 ++ '/' :: printE b 3)
  | .pow a b, p => paren (decide (3 < p)) (printE a 4 ++ '^' :: printE b 3)

/-- Printer following the precedence order asserted by claim C2 (caret highest and
right-associative, then unary minus, then star and slash, then plus and minus); it
pins down which tree the claim's standard reading assigns to a rendered string. -/
def printClaimed : Expr → ℕ → List Char
  | .num ds, _ => ds
  | .neg a, p => paren (decide (3 < p)) ('-' :: printClaimed a 3)
  | .add a b, p => paren (decide (1 < p)) (printClaimed a 1 ++ '+' :: printClaimed b 2)
  | .sub a b, p => paren (decide (1 < p)) (printClaimed a 1 ++ '-' :: printClaimed b 2)
  | .mul a b, p => paren (decide (2 < p)) (printClaimed a 2 ++ '*' :: printClaimed b 3)
  | .div a b, p => paren (decide (2 < p)) (printClaimed a 2 ++ '/' :: printClaimed b 3)
  | .pow a b, p => paren (decide (4 < p)) (printClaimed a 5 ++ '^' :: printClaimed b 4)

/-- Optional parenthesization at the token level. -/
def parenT (b : Bool) (l : List Tok) : List Tok := if b then .lparen :: l ++ [.rparen] else l

/-- Token stream of printE, described by recursion on the tree. -/
def tokListE : Expr → ℕ → List Tok
  | .num ds, _ => [.number (parseNum ds)]
  | .neg a, p => parenT (decide (4 < p)) (.minus :: tokListE a 4)
  | .add a b, p => parenT (decide (1 < p)) (tokListE a 1 ++ .plus :: tokListE b 2)
  | .sub a b, p => parenT (decide (1 < p)) (tokListE a 1 ++ .minus :: tokListE b 2)
  | .mul a b, p => parenT (decide (2 < p)) (tokListE a 2 ++ .star :: tokListE b 3)
  | .div a b, p => parenT (decide (2 < p)) (tokListE a 2 ++ .slash :: tokListE b 3)
  | .pow a b, p => parenT (decide (3 < p)) (tokListE a 4 ++ .caret :: tokListE b 3)

/-- Operator nodes of the bare rendering of e that are still pending on the parser's
stack (head = stack top) when its token stream has just been consumed. -/
def pendC : Expr → List Node
  | .num _ => []
  | .neg a => (if precE a < 4 then [] else pendC a) ++ [.op "u-"]
  | .add _ b => (if precE b < 2 then [] else pendC b) ++ [.op "+"]
  | .sub _ b => (if precE b < 2 then [] else pendC b) ++ [.op "-"]
  | .mul _ b => (if precE b < 3 then [] else pendC b) ++ [.op "*"]
  | .div _ b => (if precE b < 3 then [] else pendC b) ++ [.op "/"]
  | .pow _ b => (if precE b < 3 then [] else pendC b) ++ [.op "^"]

/-- Pending stack contribution of printE e p: empty when the rendering parenthesizes
(the closing paren flushes everything), the bare contribution otherwise. -/
def pendE (e : Expr) (p : ℕ) : List Node := if precE e < p then [] else pendC e

/-- Output-list contribution of the bare rendering of e (compileE e minus the pending
tail). -/
def leadingC : Expr → List Node
  | .num ds => [.num (parseNum ds)]
  | .neg a => if precE a < 4 then compileE a else leadingC a
  | .add a b => compileE a ++ (if precE b < 2 then compileE b else leadingC b)
  | .sub a b => compileE a ++ (if precE b < 2 then compileE b else leadingC b)
  | .mul a b => compileE a ++ (if precE b < 3 then compileE b else leadingC b)
  | .div a b => compileE a ++ (if precE b < 3 then compileE b else leadingC b)
  | .pow a b => compileE a ++ (if precE b < 3 then compileE b else leadingC b)

/-- Output-list contribution of printE e p. -/
def leadingE (e : Expr) (p : ℕ) : List Node :=
  if precE e < p then compileE e else leadingC e

/-- Last token of the bare rendering of e. -/
def lastTokC : Expr → Tok
  | .num ds => .number (parseNum ds)
  | .neg a => if precE a < 4 then .rparen else lastTokC a
  | .add _ b => if precE b < 2 then .rparen else lastTokC b
  | .sub _ b => if precE b < 2 then .rparen else lastTokC b
  | .mul _ b => if precE b < 3 then .rparen else lastTokC b
  | .div _ b => if precE b < 3 then .rparen else lastTokC b
  | .pow _ b => if precE b < 3 then .rparen else lastTokC b

/-- Last token of printE e p. -/
def lastTokE (e : Expr) (p : ℕ) : Tok :=
  if precE e < p then .rparen else lastTokC e

/-- Largest stack-top precedence that no arriving operator of precedence at least p
can pop, read off the OP table's pop condition. -/
def bound (p : ℕ) : ℕ :=
  if p ≤ 1 then 0 else if p = 2 then 1 else if p = 3 then 3 else 4

/-- The stack top blocks every arriving operator of precedence at least p: it is
empty, a non-operator marker, the "(" marker (whose symbol is not in OP), or an
operator of precedence at most bound p. -/
def barrier (p : ℕ) (ops : List Node) : Prop :=
  match ops with
  | [] => True
  | .op t :: _ =>
    match OP t with
    | some oi => oi.prec ≤ bound p
    | none => True
  | _ :: _ => True

/-- No KFunc node anywhere on the stack (toRPN never pushes one). -/
def noFunc (ops : List Node) : Prop := ∀ s, Node.func s ∉ ops

/-- Continuation characters that cannot extend a preceding numeric literal: the
lexing lemmas require the text following a printed subexpression to start this way
(or be empty). -/
def followOK : List Char → Prop
  | [] => True
  | c :: _ => isdigitC c = false ∧ c ≠ '.' ∧ c ≠ 'e' ∧ c ≠ 'E'

/-- Does at least one digit follow, after an optional sign?  This is the condition
claim C9 states for consuming an exponent marker. -/
def hasExpDigit : List Char → Bool
  | [] => false
  | c :: cs =>
    if c == '+' || c == '-' then
      match cs with
      | [] => false
      | d :: _ => isdigitC d
    else isdigitC c

/-- The shape test of evalRPN's assignment branch (main.cpp line 172): at least three
nodes, a KVar first and a KAssign second. -/
def assignShape : List Node → Bool
  | .var _ :: .assign :: _ :: _ => true
  | _ => false

/-- The arriving operator oi pops nothing from this stack. -/
def stopAt (oi : OpInfo) (ops : List Node) : Prop :=
  match ops with
  | [] => True
  | n :: _ => popsP oi n = false

/-- The token stream of a printed fragment prefixes any continuation that cannot
extend its trailing numeric literal. -/
def TokSpec (l : List Char) (ts : List Tok) : Prop :=
  ∀ rest, followOK rest → tokenize (l ++ rest) = (tokenize rest).map (fun xs => ts ++ xs)

/-! Lemmas. -/

theorem scanMant_len : ∀ (b : Bool) (l : List Char), (scanMant b l).2.length ≤ l.length := by
  intro b l
  induction l generalizing b with
  | nil => simp [scanMant]
  | cons c cs ih =>
    simp only [scanMant]
    split
    · exact le_trans (ih b) (by simp)
    · split
      · exact le_trans (ih true) (by simp)
      · simp

theorem scanExpPart_len : ∀ l : List Char, (scanExpPart l).2.length ≤ l.length := by
  intro l
  match l with
  | [] => simp [scanExpPart]
  | [c] =>
    simp only [scanExpPart]
    split
    · simp
    · simp
  | c :: s :: rr =>
    have h1 : (rr.dropWhile isdigitC).length ≤ rr.length :=
      (List.dropWhile_sublist _).length_le
    have h2 : ((s :: rr).dropWhile isdigitC).length ≤ rr.length + 1 := by
      have h3 := (List.dropWhile_sublist (l := s :: rr) isdigitC).length_le
      simpa using h3
    simp only [scanExpPart]
    split
    · split
      · split
        · simp
        · simp only [List.length_cons]
          omega
      · split
        · simp
        · simp only [List.length_cons]
          omega
    · simp

theorem nextTok_dec : ∀ (l : List Char) (t : Tok) (r : List Char),
    nextTok l = .tok t r → r.length < l.length := by
  intro l
  induction l with
  | nil => intro t r h; simp [nextTok] at h
  | cons c cs ih =>
    intro t r h
    simp only [nextTok] at h
    split at h
    · exact lt_trans (ih t r h) (by simp)
    split at h
    · injection h with h1 h2
      subst h2
      have hm := scanMant_len (c == '.') cs
      have he := scanExpPart_len (scanMant (c == '.') cs).2
      simp only [List.length_cons]
      omega
    split at h
    · injection h with h1 h2
      subst h2
      have hd : (cs.dropWhile isIdentChar).length ≤ cs.length :=
        (List.dropWhile_sublist _).length_le
      simp only [List.length_cons]
      omega
    cases hsym : symTok c with
    | some u => rw [hsym] at h; cases h; simp
    | none => rw [hsym] at h; cases h

theorem tokAux_eq : ∀ (f1 f2 : ℕ) (l : List Char), l.length < f1 → l.length < f2 →
    tokAux f1 l = tokAux f2 l := by
  intro f1
  induction f1 with
  | zero => intro f2 l h1; omega
  | succ a ih =>
    intro f2 l h1 h2
    match f2 with
    | 0 => omega
    | b + 1 =>
      simp only [tokAux]
      cases hnt : nextTok l with
      | endOfInput => rfl
      | badChar c => rfl
      | tok t r =>
        have hr := nextTok_dec l t r hnt
        simp only [hnt]
        rw [ih b r (by omega) (by omega)]

theorem tokenize_cons {l : List Char} {t : Tok} {r : List Char} (h : nextTok l = .tok t r) :
    tokenize l = (tokenize r).map (fun ts => t :: ts) := by
  have hr := nextTok_dec l t r h
  have step : tokAux (l.length + 1) l = (tokAux l.length r).map (fun ts => t :: ts) := by
    simp only [tokAux, h]
  have eqf : tokAux l.length r = tokAux (r.length + 1) r :=
    tokAux_eq l.length (r.length + 1) r (by omega) (by omega)
  calc tokenize l = tokAux (l.length + 1) l := rfl
    _ = (tokAux l.length r).map (fun ts => t :: ts) := step
    _ = (tokenize r).map (fun ts => t :: ts) := by rw [eqf]; rfl

/-! Character-class and lexing lemmas for the printed expressions. -/

theorem except_map_congr {α β : Type} {x : Except Err α} {f g : α → β}
    (h : ∀ a, f a = g a) : x.map f = x.map g := by
  cases x <;> simp [Except.map, h]

theorem except_map_map {α β γ : Type} (x : Except Err α) (f : α → β) (g : β → γ) :
    (x.map f).map g = x.map (fun a => g (f a)) := by
  cases x <;> rfl

theorem digit_ne_char {c d : Char} (h : isdigitC c = true) (hd : isdigitC d = false) :
    c ≠ d := by
  intro heq
  rw [heq, hd] at h
  cases h

theorem digit_not_space {c : Char} (h : isdigitC c = true) : isspaceC c = false := by
  simp only [isdigitC, Bool.and_eq_true, decide_eq_true_eq] at h
  simp only [isspaceC, Bool.or_eq_false_iff, Bool.and_eq_false_iff, beq_eq_false_iff_ne,
    ne_eq, decide_eq_false_iff_not, not_le]
  omega

theorem digit_not_identStart {c : Char} (h : isdigitC c = true) : isIdentStart c = false := by
  simp only [isdigitC, Bool.and_eq_true, decide_eq_true_eq] at h
  have h95 : c ≠ '_' := by
    intro heq
    rw [heq] at h
    simp at h
  simp only [isIdentStart, isalphaC, Bool.or_eq_false_iff, Bool.and_eq_false_iff,
    beq_eq_false_iff_ne, ne_eq, decide_eq_false_iff_not, not_le]
  refine ⟨⟨?_, ?_⟩, h95⟩ <;> omega

theorem scanMant_digits :
    ∀ (b : Bool) (ds rest : List Char), (∀ c ∈ ds, isdigitC c = true) → followOK rest →
      scanMant b (ds ++ rest) = (ds, rest) := by
  intro b ds
  induction ds generalizing b with
  | nil =>
    intro rest _ hf
    cases rest with
    | nil => simp [scanMant]
    | cons c cs =>
      obtain ⟨h1, h2, _, _⟩ := hf
      have h2b : (c == '.') = false := beq_eq_false_iff_ne.mpr h2
      simp [scanMant, h1, h2b]
  | cons d ds2 ih =>
    intro rest hds hf
    have hd : isdigitC d = true := hds d (by simp)
    simp only [List.cons_append, scanMant, hd, if_true]
    simp only [List.append_eq]
    rw [ih b rest (fun c hc => hds c (by simp [hc])) hf]

theorem scanExpPart_noexp : ∀ rest : List Char, followOK rest → scanExpPart rest = ([], rest) := by
  intro rest hf
  cases rest with
  | nil => rfl
  | cons c cs =>
    obtain ⟨_, _, he, hE⟩ := hf
    have hb : (c == 'e' || c == 'E') = false := by
      simp [beq_eq_false_iff_ne.mpr he, beq_eq_false_iff_ne.mpr hE]
    simp [scanExpPart, hb]

theorem nextTok_digits (d : Char) (ds rest : List Char) (hd : isdigitC d = true)
    (hds : ∀ c ∈ ds, isdigitC c = true) (hf : followOK rest) :
    nextTok ((d :: ds) ++ rest) = .tok (.number (parseNum (d :: ds))) rest := by
  have hsp := digit_not_space hd
  have hdot : (d == '.') = false := beq_eq_false_iff_ne.mpr (digit_ne_char hd (by decide))
  have hm := scanMant_digits false ds rest hds hf
  have he := scanExpPart_noexp rest hf
  simp [nextTok, hsp, hd, hdot, hm, he]

theorem nextTok_lparen (rest : List Char) : nextTok ('(' :: rest) = .tok .lparen rest := rfl

theorem nextTok_rparen (rest : List Char) : nextTok (')' :: rest) = .tok .rparen rest := rfl

theorem nextTok_plus (rest : List Char) : nextTok ('+' :: rest) = .tok .plus rest := rfl

theorem nextTok_minus (rest : List Char) : nextTok ('-' :: rest) = .tok .minus rest := rfl

theorem nextTok_star (rest : List Char) : nextTok ('*' :: rest) = .tok .star rest := rfl

theorem nextTok_slash (rest : List Char) : nextTok ('/' :: rest) = .tok .slash rest := rfl

theorem nextTok_caret (rest : List Char) : nextTok ('^' :: rest) = .tok .caret rest := rfl

theorem tokSpec_num (ds : List Char) (h1 : ds ≠ []) (h2 : ∀ c ∈ ds, isdigitC c = true) :
    TokSpec ds [.number (parseNum ds)] := by
  intro rest hf
  match ds, h1 with
  | d :: ds2, _ =>
    have hnt := nextTok_digits d ds2 rest (h2 d (by simp))
      (fun c hc => h2 c (by simp [hc])) hf
    rw [show (d :: ds2) ++ rest = d :: (ds2 ++ rest) from rfl] at hnt
    rw [List.cons_append, tokenize_cons hnt]
    exact except_map_congr (fun a => rfl)

theorem tokSpec_prefix_minus (l : List Char) (ts : List Tok) (h : TokSpec l ts) :
    TokSpec ('-' :: l) (.minus :: ts) := by
  intro rest hf
  rw [List.cons_append, tokenize_cons (nextTok_minus _), h rest hf, except_map_map]
  exact except_map_congr (fun a => rfl)

theorem tokSpec_paren (l : List Char) (ts : List Tok) (h : TokSpec l ts) :
    TokSpec ('(' :: l ++ [')']) (.lparen :: ts ++ [.rparen]) := by
  intro rest hf
  have hfr : followOK (')' :: rest) := ⟨by decide, by decide, by decide, by decide⟩
  have step1 : ('(' :: l ++ [')']) ++ rest = '(' :: (l ++ (')' :: rest)) := by simp
  rw [step1, tokenize_cons (nextTok_lparen _), h _ hfr,
    tokenize_cons (nextTok_rparen _), except_map_map, except_map_map]
  exact except_map_congr (fun a => by simp)

theorem tokSpec_binop (l1 l2 : List Char) (t1 t2 : List Tok) (c : Char) (t : Tok)
    (hc : ∀ rest, nextTok (c :: rest) = .tok t rest)
    (hnum : isdigitC c = false) (hdot : c ≠ '.') (he : c ≠ 'e') (hE : c ≠ 'E')
    (h1 : TokSpec l1 t1) (h2 : TokSpec l2 t2) :
    TokSpec (l1 ++ c :: l2) (t1 ++ t :: t2) := by
  intro rest hf
  have hfc : followOK (c :: (l2 ++ rest)) := ⟨hnum, hdot, he, hE⟩
  have step1 : (l1 ++ c :: l2) ++ rest = l1 ++ (c :: (l2 ++ rest)) := by simp
  rw [step1, h1 _ hfc, tokenize_cons (hc _), h2 rest hf, except_map_map, except_map_map]
  exact except_map_congr (fun a => by simp)

theorem tokSpec_printE :
    ∀ e : Expr, wfE e = true → ∀ p : ℕ, TokSpec (printE e p) (tokListE e p) := by
  intro e
  induction e with
  | num ds =>
    intro h p
    have hne : ds ≠ [] := by
      intro heq
      rw [heq] at h
      simp [wfE] at h
    have hall : ∀ c ∈ ds, isdigitC c = true := by
      intro c hc
      have h2 : (!ds.isEmpty && ds.all isdigitC) = true := h
      rw [Bool.and_eq_true] at h2
      exact (List.all_eq_true.mp h2.2) c hc
    exact tokSpec_num ds hne hall
  | neg a ih =>
    intro h p
    have hb := tokSpec_prefix_minus _ _ (ih h 4)
    by_cases hp : 4 < p
    · have hpr : printE (.neg a) p = '(' :: ('-' :: printE a 4) ++ [')'] := by
        simp [printE, paren, hp]
      have htk : tokListE (.neg a) p = .lparen :: (.minus :: tokListE a 4) ++ [.rparen] := by
        simp [tokListE, parenT, hp]
      rw [hpr, htk]
      exact tokSpec_paren _ _ hb
    · have hpr : printE (.neg a) p = '-' :: printE a 4 := by simp [printE, paren, hp]
      have htk : tokListE (.neg a) p = .minus :: tokListE a 4 := by simp [tokListE, parenT, hp]
      rw [hpr, htk]
      exact hb
  | add a b iha ihb =>
    intro h p
    have hw : (wfE a && wfE b) = true := h
    rw [Bool.and_eq_true] at hw
    obtain ⟨hwa, hwb⟩ := hw
    have hab := tokSpec_binop _ _ _ _ '+' .plus nextTok_plus (by decide) (by decide)
      (by decide) (by decide) (iha hwa 1) (ihb hwb 2)
    by_cases hp : 1 < p
    · have hpr : printE (.add a b) p = '(' :: (printE a 1 ++ '+' :: printE b 2) ++ [')'] := by
        simp [printE, paren, hp]
      have htk : tokListE (.add a b) p =
          .lparen :: (tokListE a 1 ++ .plus :: tokListE b 2) ++ [.rparen] := by
        simp [tokListE, parenT, hp]
      rw [hpr, htk]
      exact tokSpec_paren _ _ hab
    · have hpr : printE (.add a b) p = printE a 1 ++ '+' :: printE b 2 := by
        simp [printE, paren, hp]
      have htk : tokListE (.add a b) p = tokListE a 1 ++ .plus :: tokListE b 2 := by
        simp [tokListE, parenT, hp]
      rw [hpr, htk]
      exact hab
  | sub a b iha ihb =>
    intro h p
    have hw : (wfE a && wfE b) = true := h
    rw [Bool.and_eq_true] at hw
    obtain ⟨hwa, hwb⟩ := hw
    have hab := tokSpec_binop _ _ _ _ '-' .minus nextTok_minus (by decide) (by decide)
      (by decide) (by decide) (iha hwa 1) (ihb hwb 2)
    by_cases hp : 1 < p
    · have hpr : printE (.sub a b) p = '(' :: (printE a 1 ++ '-' :: printE b 2) ++ [')'] := by
        simp [printE, paren, hp]
      have htk : tokListE (.sub a b) p =
          .lparen :: (tokListE a 1 ++ .minus :: tokListE b 2) ++ [.rparen] := by
        simp [tokListE, parenT, hp]
      rw [hpr, htk]
      exact tokSpec_paren _ _ hab
    · have hpr : printE (.sub a b) p = printE a 1 ++ '-' :: printE b 2 := by
        simp [printE, paren, hp]
      have htk : tokListE (.sub a b) p = tokListE a 1 ++ .minus :: tokListE b 2 := by
        simp [tokListE, parenT, hp]
      rw [hpr, htk]
      exact hab
  | mul a b iha ihb =>
    intro h p
    have hw : (wfE a && wfE b) = true := h
    rw [Bool.and_eq_true] at hw
    obtain ⟨hwa, hwb⟩ := hw
    have hab := tokSpec_binop _ _ _ _ '*' .star nextTok_star (by decide) (by decide)
      (by decide) (by decide) (iha hwa 2) (ihb hwb 3)
    by_cases hp : 2 < p
    · have hpr : printE (.mul a b) p = '(' :: (printE a 2 ++ '*' :: printE b 3) ++ [')'] := by
        simp [printE, paren, hp]
      have htk : tokListE (.mul a b) p =
          .lparen :: (tokListE a 2 ++ .star :: tokListE b 3) ++ [.rparen] := by
        simp [tokListE, parenT, hp]
      rw [hpr, htk]
      exact tokSpec_paren _ _ hab
    · have hpr : printE (.mul a b) p = printE a 2 ++ '*' :: printE b 3 := by
        simp [printE, paren, hp]
      have htk : tokListE (.mul a b) p = tokListE a 2 ++ .star :: tokListE b 3 := by
        simp [tokListE, parenT, hp]
      rw [hpr, htk]
      exact hab
  | div a b iha ihb =>
    intro h p
    have hw : (wfE a && wfE b) = true := h
    rw [Bool.and_eq_true] at hw
    obtain ⟨hwa, hwb⟩ := hw
    have hab := tokSpec_binop _ _ _ _ '/' .slash nextTok_slash (by decide) (by decide)
      (by decide) (by decide) (iha hwa 2) (ihb hwb 3)
    by_cases hp : 2 < p
    · have hpr : printE (.div a b) p = '(' :: (printE a 2 ++ '/' :: printE b 3) ++ [')'] := by
        simp [printE, paren, hp]
      have htk : tokListE (.div a b) p =
          .lparen :: (tokListE a 2 ++ .slash :: tokListE b 3) ++ [.rparen] := by
        simp [tokListE, parenT, hp]
      rw [hpr, htk]
      exact tokSpec_paren _ _ hab
    · have hpr : printE (.div a b) p = printE a 2 ++ '/' :: printE b 3 := by
        simp [printE, paren, hp]
      have htk : tokListE (.div a b) p = tokListE a 2 ++ .slash :: tokListE b 3 := by
        simp [tokListE, parenT, hp]
      rw [hpr, htk]
      exact hab
  | pow a b iha ihb =>
    intro h p
    have hw : (wfE a && wfE b) = true := h
    rw [Bool.and_eq_true] at hw
    obtain ⟨hwa, hwb⟩ := hw
    have hab := tokSpec_binop _ _ _ _ '^' .caret nextTok_caret (by decide) (by decide)
      (by decide) (by decide) (iha hwa 4) (ihb hwb 3)
    by_cases hp : 3 < p
    · have hpr : printE (.pow a b) p = '(' :: (printE a 4 ++ '^' :: printE b 3) ++ [')'] := by
        simp [printE, paren, hp]
      have htk : tokListE (.pow a b) p =
          .lparen :: (tokListE a 4 ++ .caret :: tokListE b 3) ++ [.rparen] := by
        simp [tokListE, parenT, hp]
      rw [hpr, htk]
      exact tokSpec_paren _ _ hab
    · have hpr : printE (.pow a b) p = printE a 4 ++ '^' :: printE b 3 := by
        simp [printE, paren, hp]
      have htk : tokListE (.pow a b) p = tokListE a 4 ++ .caret :: tokListE b 3 := by
        simp [tokListE, parenT, hp]
      rw [hpr, htk]
      exact hab

theorem tokenize_printE (e : Expr) (h : wfE e = true) :
    tokenize (printE e 1) = .ok (tokListE e 1) := by
  have h2 := tokSpec_printE e h 1 [] (by constructor)
  rw [List.append_nil] at h2
  rw [show tokenize ([] : List Char) = .ok [] from rfl] at h2
  simpa [Except.map] using h2

/-! Parser lemmas: the shunting-yard loop on printed expressions. -/

theorem bound_le (p : ℕ) : bound p ≤ 4 := by
  unfold bound
  split_ifs <;> omega

theorem bound_mono {p q : ℕ} (h : p ≤ q) : bound p ≤ bound q := by
  unfold bound
  split_ifs <;> omega

theorem bound_lt_two {p : ℕ} (h1 : 1 ≤ p) (h2 : p ≤ 2) : bound p ≤ 1 := by
  unfold bound
  split_ifs <;> omega

theorem bound_le_three {p : ℕ} (h : p ≤ 3) : bound p ≤ 3 := by
  unfold bound
  split_ifs <;> omega

theorem bound_one : bound 1 = 0 := rfl

theorem barrier_mono {p q : ℕ} {ops : List Node} (h : p ≤ q) (hb : barrier p ops) :
    barrier q ops := by
  match ops with
  | [] => exact trivial
  | .op t :: rest =>
    simp only [barrier] at hb ⊢
    cases hop : OP t with
    | none => exact trivial
    | some oi =>
      rw [hop] at hb
      exact le_trans hb (bound_mono h)
  | .num v :: rest => exact trivial
  | .var s :: rest => exact trivial
  | .func s :: rest => exact trivial
  | .argSep :: rest => exact trivial
  | .assign :: rest => exact trivial

theorem stopAt_of_barrier (oi : OpInfo) (p : ℕ) (ops : List Node) (hb : barrier p ops)
    (h : if oi.rightAssoc then bound p ≤ oi.prec else bound p < oi.prec) :
    stopAt oi ops := by
  match ops with
  | [] => exact trivial
  | n :: rest =>
    show popsP oi n = false
    match n with
    | .num v => rfl
    | .var s => rfl
    | .func s => rfl
    | .argSep => rfl
    | .assign => rfl
    | .op t =>
      simp only [popsP]
      cases hop : OP t with
      | none => rfl
      | some top =>
        have hbp : top.prec ≤ bound p := by
          simp only [barrier, hop] at hb
          exact hb
        cases hra : oi.rightAssoc with
        | false =>
          simp only [hra, Bool.false_eq_true, if_false] at h ⊢
          simp only [decide_eq_false_iff_not, not_le]
          omega
        | true =>
          simp only [hra, if_true] at h ⊢
          simp only [decide_eq_false_iff_not, not_lt]
          omega

theorem popOps_cons_pop {oi : OpInfo} {n : Node} (h : popsP oi n = true)
    (rest out : List Node) : popOps oi (n :: rest) out = popOps oi rest (out ++ [n]) := by
  simp [popOps, h]

theorem popOps_cons_stop {oi : OpInfo} {n : Node} (h : popsP oi n = false)
    (rest out : List Node) : popOps oi (n :: rest) out = (n :: rest, out) := by
  simp [popOps, h]

theorem popOps_flushes (oi : OpInfo) :
    ∀ (pend ops out : List Node), (∀ n ∈ pend, popsP oi n = true) → stopAt oi ops →
      popOps oi (pend ++ ops) out = (ops, out ++ pend) := by
  intro pend
  induction pend with
  | nil =>
    intro ops out _ hstop
    cases ops with
    | nil => simp [popOps]
    | cons n rest =>
      have : popsP oi n = false := hstop
      simp [popOps_cons_stop this]
  | cons n pend2 ih =>
    intro ops out hcan hstop
    rw [List.cons_append, popOps_cons_pop (hcan n (by simp)) _ out]
    rw [ih ops (out ++ [n]) (fun m hm => hcan m (by simp [hm])) hstop]
    simp

theorem popToParen_flush :
    ∀ (pend ops out : List Node), (∀ n ∈ pend, n ≠ .op "(") →
      popToParen (pend ++ .op "(" :: ops) out = some (ops, out ++ pend) := by
  intro pend
  induction pend with
  | nil =>
    intro ops out _
    simp [popToParen]
  | cons n pend2 ih =>
    intro ops out hne
    have hn : n ≠ Node.op "(" := hne n (by simp)
    simp only [List.cons_append, popToParen, if_neg hn, List.append_eq]
    rw [ih ops (out ++ [n]) (fun m hm => hne m (by simp [hm]))]
    simp

theorem noFunc_nil : noFunc [] := by
  intro s h
  cases h

theorem noFunc_cons_op {ops : List Node} (h : noFunc ops) (t : String) :
    noFunc (.op t :: ops) := by
  intro s hmem
  rcases List.mem_cons.mp hmem with heq | hmem2
  · cases heq
  · exact h s hmem2

theorem noFunc_not_func_head {ops : List Node} (h : noFunc ops) :
    ∀ (f : String) (rest2 : List Node), ops ≠ .func f :: rest2 := by
  intro f rest2 heq
  exact h f (heq ▸ List.mem_cons_self _ _)

theorem parseRun_cons {st : PState} {t : Tok} {st2 : PState} (ts : List Tok)
    (h : parseTok st t = .ok st2) : parseRun st (t :: ts) = parseRun st2 ts := by
  simp [parseRun, h]

theorem parseRun_append {st st2 : PState} {xs : List Tok} (ys : List Tok)
    (h : parseRun st xs = .ok st2) : parseRun st (xs ++ ys) = parseRun st2 ys := by
  induction xs generalizing st with
  | nil =>
    simp only [parseRun] at h
    cases h
    rfl
  | cons x xs2 ih =>
    cases hx : parseTok st x with
    | error e =>
      simp only [parseRun, hx] at h
      cases h
    | ok st3 =>
      have h2 : parseRun st3 xs2 = .ok st2 := by
        simp only [parseRun, hx] at h
        exact h
      rw [List.cons_append, parseRun_cons _ hx]
      exact ih h2

theorem parseTok_number (v : ℚ) (out ops : List Node) (prev : Option Tok) :
    parseTok ⟨out, ops, prev⟩ (.number v) = .ok ⟨out ++ [.num v], ops, some (.number v)⟩ := rfl

theorem parseTok_lparen (out ops : List Node) (prev : Option Tok) :
    parseTok ⟨out, ops, prev⟩ .lparen = .ok ⟨out, .op "(" :: ops, some .lparen⟩ := rfl

theorem parseTok_plus (out ops : List Node) (prev : Option Tok) :
    parseTok ⟨out, ops, prev⟩ .plus =
      .ok ⟨(popOps ⟨1, false, 2⟩ ops out).2, .op "+" :: (popOps ⟨1, false, 2⟩ ops out).1,
        some .plus⟩ := by
  simp [parseTok, opSym, OP]

theorem parseTok_star (out ops : List Node) (prev : Option Tok) :
    parseTok ⟨out, ops, prev⟩ .star =
      .ok ⟨(popOps ⟨2, false, 2⟩ ops out).2, .op "*" :: (popOps ⟨2, false, 2⟩ ops out).1,
        some .star⟩ := by
  simp [parseTok, opSym, OP]

theorem parseTok_slash (out ops : List Node) (prev : Option Tok) :
    parseTok ⟨out, ops, prev⟩ .slash =
      .ok ⟨(popOps ⟨2, false, 2⟩ ops out).2, .op "/" :: (popOps ⟨2, false, 2⟩ ops out).1,
        some .slash⟩ := by
  simp [parseTok, opSym, OP]

theorem parseTok_caret (out ops : List Node) (prev : Option Tok) :
    parseTok ⟨out, ops, prev⟩ .caret =
      .ok ⟨(popOps ⟨3, true, 2⟩ ops out).2, .op "^" :: (popOps ⟨3, true, 2⟩ ops out).1,
        some .caret⟩ := by
  simp [parseTok, opSym, OP]

theorem parseTok_minus_unary {prev : Option Tok} (h : isUnaryCtx prev = true)
    (out ops : List Node) :
    parseTok ⟨out, ops, prev⟩ .minus =
      .ok ⟨(popOps ⟨4, true, 1⟩ ops out).2, .op "u-" :: (popOps ⟨4, true, 1⟩ ops out).1,
        some .minus⟩ := by
  simp [parseTok, opSym, h, OP]

theorem parseTok_minus_binary {prev : Option Tok} (h : isUnaryCtx prev = false)
    (out ops : List Node) :
    parseTok ⟨out, ops, prev⟩ .minus =
      .ok ⟨(popOps ⟨1, false, 2⟩ ops out).2, .op "-" :: (popOps ⟨1, false, 2⟩ ops out).1,
        some .minus⟩ := by
  simp [parseTok, opSym, h, OP]

theorem parseTok_rparen_eval {out ops rest out2 : List Node} {prev : Option Tok}
    (h : popToParen ops out = some (rest, out2))
    (hnf : ∀ (f : String) (rest2 : List Node), rest ≠ .func f :: rest2) :
    parseTok ⟨out, ops, prev⟩ .rparen = .ok ⟨out2, rest, some .rparen⟩ := by
  simp only [parseTok, h]


theorem precE_pos : ∀ e : Expr, 1 ≤ precE e := by
  intro e
  cases e <;> simp [precE]

theorem leadingC_pendC : ∀ e : Expr, leadingC e ++ pendC e = compileE e := by
  intro e
  induction e with
  | num ds => rfl
  | neg a ih =>
    simp only [leadingC, pendC, compileE]
    by_cases hp : precE a < 4
    · simp [hp]
    · simp only [hp, if_false]
      rw [← List.append_assoc, ih]
  | add a b iha ihb =>
    simp only [leadingC, pendC, compileE]
    by_cases hp : precE b < 2
    · simp [hp]
    · simp only [hp, if_false]
      rw [List.append_assoc, ← List.append_assoc (leadingC b), ihb, List.append_assoc]
  | sub a b iha ihb =>
    simp only [leadingC, pendC, compileE]
    by_cases hp : precE b < 2
    · simp [hp]
    · simp only [hp, if_false]
      rw [List.append_assoc, ← List.append_assoc (leadingC b), ihb, List.append_assoc]
  | mul a b iha ihb =>
    simp only [leadingC, pendC, compileE]
    by_cases hp : precE b < 3
    · simp [hp]
    · simp only [hp, if_false]
      rw [List.append_assoc, ← List.append_assoc (leadingC b), ihb, List.append_assoc]
  | div a b iha ihb =>
    simp only [leadingC, pendC, compileE]
    by_cases hp : precE b < 3
    · simp [hp]
    · simp only [hp, if_false]
      rw [List.append_assoc, ← List.append_assoc (leadingC b), ihb, List.append_assoc]
  | pow a b iha ihb =>
    simp only [leadingC, pendC, compileE]
    by_cases hp : precE b < 3
    · simp [hp]
    · simp only [hp, if_false]
      rw [List.append_assoc, ← List.append_assoc (leadingC b), ihb, List.append_assoc]

theorem leadingE_pendE (e : Expr) (p : ℕ) : leadingE e p ++ pendE e p = compileE e := by
  unfold leadingE pendE
  by_cases hp : precE e < p
  · simp [hp]
  · simp [hp, leadingC_pendC]

theorem lastTok_shape :
    ∀ (e : Expr) (p : ℕ), (∃ v, lastTokE e p = .number v) ∨ lastTokE e p = .rparen := by
  intro e
  induction e with
  | num ds =>
    intro p
    unfold lastTokE
    by_cases hp : precE (.num ds) < p
    · right
      rw [if_pos hp]
    · left
      rw [if_neg hp]
      exact ⟨parseNum ds, rfl⟩
  | neg a ih =>
    intro p
    unfold lastTokE
    by_cases hp : precE (.neg a) < p
    · right
      rw [if_pos hp]
    · rw [if_neg hp]
      exact ih 4
  | add a b iha ihb =>
    intro p
    unfold lastTokE
    by_cases hp : precE (.add a b) < p
    · right
      rw [if_pos hp]
    · rw [if_neg hp]
      exact ihb 2
  | sub a b iha ihb =>
    intro p
    unfold lastTokE
    by_cases hp : precE (.sub a b) < p
    · right
      rw [if_pos hp]
    · rw [if_neg hp]
      exact ihb 2
  | mul a b iha ihb =>
    intro p
    unfold lastTokE
    by_cases hp : precE (.mul a b) < p
    · right
      rw [if_pos hp]
    · rw [if_neg hp]
      exact ihb 3
  | div a b iha ihb =>
    intro p
    unfold lastTokE
    by_cases hp : precE (.div a b) < p
    · right
      rw [if_pos hp]
    · rw [if_neg hp]
      exact ihb 3
  | pow a b iha ihb =>
    intro p
    unfold lastTokE
    by_cases hp : precE (.pow a b) < p
    · right
      rw [if_pos hp]
    · rw [if_neg hp]
      exact ihb 3

theorem lastTok_not_unary (e : Expr) (p : ℕ) : isUnaryCtx (some (lastTokE e p)) = false := by
  rcases lastTok_shape e p with ⟨v, h⟩ | h <;> rw [h] <;> rfl

theorem pendC_ops :
    ∀ e : Expr, ∀ n ∈ pendC e,
      ∃ t oi, n = Node.op t ∧ OP t = some oi ∧ precE e ≤ oi.prec := by
  intro e
  induction e with
  | num ds =>
    intro n hn
    simp [pendC] at hn
  | neg a ih =>
    intro n hn
    simp only [pendC, List.mem_append] at hn
    rcases hn with hn | hn
    · by_cases hp : precE a < 4
      · rw [if_pos hp] at hn
        simp at hn
      · rw [if_neg hp] at hn
        obtain ⟨t, oi, h1, h2, h3⟩ := ih n hn
        exact ⟨t, oi, h1, h2, by simp only [precE]; omega⟩
    · simp at hn
      subst hn
      exact ⟨"u-", ⟨4, true, 1⟩, rfl, rfl, by simp [precE]⟩
  | add a b iha ihb =>
    intro n hn
    simp only [pendC, List.mem_append] at hn
    rcases hn with hn | hn
    · by_cases hp : precE b < 2
      · rw [if_pos hp] at hn
        simp at hn
      · rw [if_neg hp] at hn
        obtain ⟨t, oi, h1, h2, h3⟩ := ihb n hn
        exact ⟨t, oi, h1, h2, by simp only [precE]; omega⟩
    · simp at hn
      subst hn
      exact ⟨"+", ⟨1, false, 2⟩, rfl, rfl, by simp [precE]⟩
  | sub a b iha ihb =>
    intro n hn
    simp only [pendC, List.mem_append] at hn
    rcases hn with hn | hn
    · by_cases hp : precE b < 2
      · rw [if_pos hp] at hn
        simp at hn
      · rw [if_neg hp] at hn
        obtain ⟨t, oi, h1, h2, h3⟩ := ihb n hn
        exact ⟨t, oi, h1, h2, by simp only [precE]; omega⟩
    · simp at hn
      subst hn
      exact ⟨"-", ⟨1, false, 2⟩, rfl, rfl, by simp [precE]⟩
  | mul a b iha ihb =>
    intro n hn
    simp only [pendC, List.mem_append] at hn
    rcases hn with hn | hn
    · by_cases hp : precE b < 3
      · rw [if_pos hp] at hn
        simp at hn
      · rw [if_neg hp] at hn
        obtain ⟨t, oi, h1, h2, h3⟩ := ihb n hn
        exact ⟨t, oi, h1, h2, by simp only [precE]; omega⟩
    · simp at hn
      subst hn
      exact ⟨"*", ⟨2, false, 2⟩, rfl, rfl, by simp [precE]⟩
  | div a b iha ihb =>
    intro n hn
    simp only [pendC, List.mem_append] at hn
    rcases hn with hn | hn
    · by_cases hp : precE b < 3
      · rw [if_pos hp] at hn
        simp at hn
      · rw [if_neg hp] at hn
        obtain ⟨t, oi, h1, h2, h3⟩ := ihb n hn
        exact ⟨t, oi, h1, h2, by simp only [precE]; omega⟩
    · simp at hn
      subst hn
      exact ⟨"/", ⟨2, false, 2⟩, rfl, rfl, by simp [precE]⟩
  | pow a b iha ihb =>
    intro n hn
    simp only [pendC, List.mem_append] at hn
    rcases hn with hn | hn
    · by_cases hp : precE b < 3
      · rw [if_pos hp] at hn
        simp at hn
      · rw [if_neg hp] at hn
        obtain ⟨t, oi, h1, h2, h3⟩ := ihb n hn
        exact ⟨t, oi, h1, h2, by simp only [precE]; omega⟩
    · simp at hn
      subst hn
      exact ⟨"^", ⟨3, true, 2⟩, rfl, rfl, by simp [precE]⟩

theorem pendE_ops (e : Expr) (p : ℕ) :
    ∀ n ∈ pendE e p, ∃ t oi, n = Node.op t ∧ OP t = some oi ∧ p ≤ oi.prec := by
  intro n hn
  unfold pendE at hn
  by_cases hp : precE e < p
  · rw [if_pos hp] at hn
    simp at hn
  · rw [if_neg hp] at hn
    obtain ⟨t, oi, h1, h2, h3⟩ := pendC_ops e n hn
    exact ⟨t, oi, h1, h2, by omega⟩

theorem pendC_ne_paren (e : Expr) : ∀ n ∈ pendC e, n ≠ Node.op "(" := by
  intro n hn heq
  obtain ⟨t, oi, h1, h2, _⟩ := pendC_ops e n hn
  rw [heq] at h1
  cases h1
  have h0 : OP "(" = none := rfl
  rw [h0] at h2
  cases h2

theorem barrier_lparen (p : ℕ) (ops : List Node) : barrier p (.op "(" :: ops) := by
  simp [barrier, OP]

theorem barrier_op {p : ℕ} {t : String} {oi : OpInfo} (h : OP t = some oi)
    (hle : oi.prec ≤ bound p) (ops : List Node) : barrier p (.op t :: ops) := by
  simp [barrier, h, hle]

theorem parseRun_paren_wrap (core : List Tok) (lead pend : List Node) (lastT : Tok)
    (bq : ℕ)
    (hbare : ∀ (out ops : List Node) (prev : Option Tok), isUnaryCtx prev = true →
      barrier bq ops → noFunc ops →
      parseRun ⟨out, ops, prev⟩ core = .ok ⟨out ++ lead, pend ++ ops, some lastT⟩)
    (hpend : ∀ n ∈ pend, n ≠ Node.op "(") :
    ∀ (out ops : List Node) (prev : Option Tok), noFunc ops →
      parseRun ⟨out, ops, prev⟩ (.lparen :: core ++ [.rparen]) =
        .ok ⟨out ++ (lead ++ pend), ops, some .rparen⟩ := by
  intro out ops prev hnf
  have hstep : Tok.lparen :: core ++ [Tok.rparen] = Tok.lparen :: (core ++ [Tok.rparen]) := rfl
  rw [hstep, parseRun_cons _ (parseTok_lparen out ops prev)]
  have hb1 : barrier bq (.op "(" :: ops) := barrier_lparen bq ops
  have hnf2 : noFunc (.op "(" :: ops) := noFunc_cons_op hnf "("
  rw [parseRun_append _ (hbare out (.op "(" :: ops) (some .lparen) rfl hb1 hnf2)]
  have hpp := popToParen_flush pend ops (out ++ lead) hpend
  rw [parseRun_cons _ (parseTok_rparen_eval hpp (noFunc_not_func_head hnf))]
  simp [parseRun, List.append_assoc]


/-- Main parser lemma: running toRPN's token loop over the printed rendering of an
expression, from any state whose stack blocks arriving operators of the ambient
precedence level, appends the compiled output except for the pending operator spine
left on the stack. -/
theorem parseRun_printE :
    ∀ (e : Expr) (p : ℕ), 1 ≤ p → p ≤ 4 →
      ∀ (out ops : List Node) (prev : Option Tok),
        isUnaryCtx prev = true → barrier p ops → noFunc ops →
        parseRun ⟨out, ops, prev⟩ (tokListE e p) =
          .ok ⟨out ++ leadingE e p, pendE e p ++ ops, some (lastTokE e p)⟩ := by
  intro e
  induction e with
  | num ds =>
    intro p hp1 hp4 out ops prev hu hb hnf
    have hpar : ¬ precE (.num ds) < p := by simp only [precE]; omega
    have ht : tokListE (.num ds) p = [.number (parseNum ds)] := rfl
    rw [ht, parseRun_cons _ (parseTok_number (parseNum ds) out ops prev)]
    simp [parseRun, leadingE, pendE, lastTokE, leadingC, pendC, lastTokC, hpar]
  | neg a ih =>
    intro p hp1 hp4 out ops prev hu hb hnf
    have hpar : ¬ precE (.neg a) < p := by simp only [precE]; omega
    have ht : tokListE (.neg a) p = .minus :: tokListE a 4 := by
      simp [tokListE, parenT, show ¬ (4 < p) from by omega]
    rw [ht]
    have hb4 : barrier 4 ops := barrier_mono hp4 hb
    have hstop : stopAt ⟨4, true, 1⟩ ops := stopAt_of_barrier _ 4 _ hb4 (by decide)
    have hpop : popOps ⟨4, true, 1⟩ ops out = (ops, out) := by
      have h0 := popOps_flushes ⟨4, true, 1⟩ [] ops out (by simp) hstop
      simpa using h0
    have hmt : parseTok ⟨out, ops, prev⟩ .minus = .ok ⟨out, .op "u-" :: ops, some .minus⟩ := by
      rw [parseTok_minus_unary hu out ops, hpop]
    rw [parseRun_cons _ hmt]
    rw [ih 4 (by omega) le_rfl out (.op "u-" :: ops) (some .minus) rfl
      (barrier_op (t := "u-") rfl (by decide) ops) (noFunc_cons_op hnf "u-")]
    simp [leadingE, pendE, lastTokE, leadingC, pendC, lastTokC, hpar, List.append_assoc]
  | add a b iha ihb =>
    intro p hp1 hp4 out ops prev hu hb hnf
    have bare : ∀ (out ops : List Node) (prev : Option Tok), isUnaryCtx prev = true →
        barrier 1 ops → noFunc ops →
        parseRun ⟨out, ops, prev⟩ (tokListE a 1 ++ .plus :: tokListE b 2) =
          .ok ⟨out ++ leadingC (.add a b), pendC (.add a b) ++ ops,
            some (lastTokC (.add a b))⟩ := by
      intro out ops prev hu hb hnf
      rw [parseRun_append _ (iha 1 le_rfl (by omega) out ops prev hu hb hnf)]
      have hcan : ∀ n ∈ pendE a 1, popsP ⟨1, false, 2⟩ n = true := by
        intro n hn
        obtain ⟨t, oi, h1, h2, h3⟩ := pendE_ops a 1 n hn
        subst h1
        simp [popsP, h2]
        omega
      have hstop : stopAt ⟨1, false, 2⟩ ops := stopAt_of_barrier _ 1 _ hb (by decide)
      have hpop := popOps_flushes ⟨1, false, 2⟩ (pendE a 1) ops (out ++ leadingE a 1) hcan hstop
      have hpt : parseTok ⟨out ++ leadingE a 1, pendE a 1 ++ ops, some (lastTokE a 1)⟩ .plus =
          .ok ⟨out ++ compileE a, .op "+" :: ops, some .plus⟩ := by
        rw [parseTok_plus, hpop, List.append_assoc, leadingE_pendE]
      rw [parseRun_cons _ hpt]
      rw [ihb 2 (by omega) (by omega) (out ++ compileE a) (.op "+" :: ops) (some .plus) rfl
        (barrier_op (t := "+") rfl (by decide) ops) (noFunc_cons_op hnf "+")]
      simp [leadingE, pendE, lastTokE, leadingC, pendC, lastTokC, List.append_assoc]
    by_cases hpar : precE (.add a b) < p
    · have h1p : (1 : ℕ) < p := by simpa [precE] using hpar
      have ht : tokListE (.add a b) p =
          .lparen :: (tokListE a 1 ++ .plus :: tokListE b 2) ++ [.rparen] := by
        simp [tokListE, parenT, h1p]
      rw [ht, parseRun_paren_wrap _ _ _ _ 1 bare (pendC_ne_paren _) out ops prev hnf]
      simp [leadingE, pendE, lastTokE, hpar, leadingC_pendC]
    · have hple : p = 1 := by simp only [precE] at hpar; omega
      subst hple
      have ht : tokListE (.add a b) 1 = tokListE a 1 ++ .plus :: tokListE b 2 := by
        simp [tokListE, parenT]
      rw [ht, bare out ops prev hu hb hnf]
      simp [leadingE, pendE, lastTokE, hpar]
  | sub a b iha ihb =>
    intro p hp1 hp4 out ops prev hu hb hnf
    have bare : ∀ (out ops : List Node) (prev : Option Tok), isUnaryCtx prev = true →
        barrier 1 ops → noFunc ops →
        parseRun ⟨out, ops, prev⟩ (tokListE a 1 ++ .minus :: tokListE b 2) =
          .ok ⟨out ++ leadingC (.sub a b), pendC (.sub a b) ++ ops,
            some (lastTokC (.sub a b))⟩ := by
      intro out ops prev hu hb hnf
      rw [parseRun_append _ (iha 1 le_rfl (by omega) out ops prev hu hb hnf)]
      have hcan : ∀ n ∈ pendE a 1, popsP ⟨1, false, 2⟩ n = true := by
        intro n hn
        obtain ⟨t, oi, h1, h2, h3⟩ := pendE_ops a 1 n hn
        subst h1
        simp [popsP, h2]
        omega
      have hstop : stopAt ⟨1, false, 2⟩ ops := stopAt_of_barrier _ 1 _ hb (by decide)
      have hpop := popOps_flushes ⟨1, false, 2⟩ (pendE a 1) ops (out ++ leadingE a 1) hcan hstop
      have hpt : parseTok ⟨out ++ leadingE a 1, pendE a 1 ++ ops, some (lastTokE a 1)⟩ .minus =
          .ok ⟨out ++ compileE a, .op "-" :: ops, some .minus⟩ := by
        rw [parseTok_minus_binary (lastTok_not_unary a 1), hpop, List.append_assoc,
          leadingE_pendE]
      rw [parseRun_cons _ hpt]
      rw [ihb 2 (by omega) (by omega) (out ++ compileE a) (.op "-" :: ops) (some .minus) rfl
        (barrier_op (t := "-") rfl (by decide) ops) (noFunc_cons_op hnf "-")]
      simp [leadingE, pendE, lastTokE, leadingC, pendC, lastTokC, List.append_assoc]
    by_cases hpar : precE (.sub a b) < p
    · have h1p : (1 : ℕ) < p := by simpa [precE] using hpar
      have ht : tokListE (.sub a b) p =
          .lparen :: (tokListE a 1 ++ .minus :: tokListE b 2) ++ [.rparen] := by
        simp [tokListE, parenT, h1p]
      rw [ht, parseRun_paren_wrap _ _ _ _ 1 bare (pendC_ne_paren _) out ops prev hnf]
      simp [leadingE, pendE, lastTokE, hpar, leadingC_pendC]
    · have hple : p = 1 := by simp only [precE] at hpar; omega
      subst hple
      have ht : tokListE (.sub a b) 1 = tokListE a 1 ++ .minus :: tokListE b 2 := by
        simp [tokListE, parenT]
      rw [ht, bare out ops prev hu hb hnf]
      simp [leadingE, pendE, lastTokE, hpar]
  | mul a b iha ihb =>
    intro p hp1 hp4 out ops prev hu hb hnf
    have bare : ∀ (out ops : List Node) (prev : Option Tok), isUnaryCtx prev = true →
        barrier 2 ops → noFunc ops →
        parseRun ⟨out, ops, prev⟩ (tokListE a 2 ++ .star :: tokListE b 3) =
          .ok ⟨out ++ leadingC (.mul a b), pendC (.mul a b) ++ ops,
            some (lastTokC (.mul a b))⟩ := by
      intro out ops prev hu hb hnf
      rw [parseRun_append _ (iha 2 (by omega) (by omega) out ops prev hu hb hnf)]
      have hcan : ∀ n ∈ pendE a 2, popsP ⟨2, false, 2⟩ n = true := by
        intro n hn
        obtain ⟨t, oi, h1, h2, h3⟩ := pendE_ops a 2 n hn
        subst h1
        simp [popsP, h2]
        omega
      have hstop : stopAt ⟨2, false, 2⟩ ops := stopAt_of_barrier _ 2 _ hb (by decide)
      have hpop := popOps_flushes ⟨2, false, 2⟩ (pendE a 2) ops (out ++ leadingE a 2) hcan hstop
      have hpt : parseTok ⟨out ++ leadingE a 2, pendE a 2 ++ ops, some (lastTokE a 2)⟩ .star =
          .ok ⟨out ++ compileE a, .op "*" :: ops, some .star⟩ := by
        rw [parseTok_star, hpop, List.append_assoc, leadingE_pendE]
      rw [parseRun_cons _ hpt]
      rw [ihb 3 (by omega) (by omega) (out ++ compileE a) (.op "*" :: ops) (some .star) rfl
        (barrier_op (t := "*") rfl (by decide) ops) (noFunc_cons_op hnf "*")]
      simp [leadingE, pendE, lastTokE, leadingC, pendC, lastTokC, List.append_assoc]
    by_cases hpar : precE (.mul a b) < p
    · have h1p : (2 : ℕ) < p := by simpa [precE] using hpar
      have ht : tokListE (.mul a b) p =
          .lparen :: (tokListE a 2 ++ .star :: tokListE b 3) ++ [.rparen] := by
        simp [tokListE, parenT, h1p]
      rw [ht, parseRun_paren_wrap _ _ _ _ 2 bare (pendC_ne_paren _) out ops prev hnf]
      simp [leadingE, pendE, lastTokE, hpar, leadingC_pendC]
    · have hple : p ≤ 2 := by simp only [precE] at hpar; omega
      have ht : tokListE (.mul a b) p = tokListE a 2 ++ .star :: tokListE b 3 := by
        simp [tokListE, parenT, show ¬ (2 < p) from by omega]
      rw [ht, bare out ops prev hu (barrier_mono hple hb) hnf]
      simp [leadingE, pendE, lastTokE, hpar]
  | div a b iha ihb =>
    intro p hp1 hp4 out ops prev hu hb hnf
    have bare : ∀ (out ops : List Node) (prev : Option Tok), isUnaryCtx prev = true →
        barrier 2 ops → noFunc ops →
        parseRun ⟨out, ops, prev⟩ (tokListE a 2 ++ .slash :: tokListE b 3) =
          .ok ⟨out ++ leadingC (.div a b), pendC (.div a b) ++ ops,
            some (lastTokC (.div a b))⟩ := by
      intro out ops prev hu hb hnf
      rw [parseRun_append _ (iha 2 (by omega) (by omega) out ops prev hu hb hnf)]
      have hcan : ∀ n ∈ pendE a 2, popsP ⟨2, false, 2⟩ n = true := by
        intro n hn
        obtain ⟨t, oi, h1, h2, h3⟩ := pendE_ops a 2 n hn
        subst h1
        simp [popsP, h2]
        omega
      have hstop : stopAt ⟨2, false, 2⟩ ops := stopAt_of_barrier _ 2 _ hb (by decide)
      have hpop := popOps_flushes ⟨2, false, 2⟩ (pendE a 2) ops (out ++ leadingE a 2) hcan hstop
      have hpt : parseTok ⟨out ++ leadingE a 2, pendE a 2 ++ ops, some (lastTokE a 2)⟩ .slash =
          .ok ⟨out ++ compileE a, .op "/" :: ops, some .slash⟩ := by
        rw [parseTok_slash, hpop, List.append_assoc, leadingE_pendE]
      rw [parseRun_cons _ hpt]
      rw [ihb 3 (by omega) (by omega) (out ++ compileE a) (.op "/" :: ops) (some .slash) rfl
        (barrier_op (t := "/") rfl (by decide) ops) (noFunc_cons_op hnf "/")]
      simp [leadingE, pendE, lastTokE, leadingC, pendC, lastTokC, List.append_assoc]
    by_cases hpar : precE (.div a b) < p
    · have h1p : (2 : ℕ) < p := by simpa [precE] using hpar
      have ht : tokListE (.div a b) p =
          .lparen :: (tokListE a 2 ++ .slash :: tokListE b 3) ++ [.rparen] := by
        simp [tokListE, parenT, h1p]
      rw [ht, parseRun_paren_wrap _ _ _ _ 2 bare (pendC_ne_paren _) out ops prev hnf]
      simp [leadingE, pendE, lastTokE, hpar, leadingC_pendC]
    · have hple : p ≤ 2 := by simp only [precE] at hpar; omega
      have ht : tokListE (.div a b) p = tokListE a 2 ++ .slash :: tokListE b 3 := by
        simp [tokListE, parenT, show ¬ (2 < p) from by omega]
      rw [ht, bare out ops prev hu (barrier_mono hple hb) hnf]
      simp [leadingE, pendE, lastTokE, hpar]
  | pow a b iha ihb =>
    intro p hp1 hp4 out ops prev hu hb hnf
    have bare : ∀ (out ops : List Node) (prev : Option Tok), isUnaryCtx prev = true →
        barrier 3 ops → noFunc ops →
        parseRun ⟨out, ops, prev⟩ (tokListE a 4 ++ .caret :: tokListE b 3) =
          .ok ⟨out ++ leadingC (.pow a b), pendC (.pow a b) ++ ops,
            some (lastTokC (.pow a b))⟩ := by
      intro out ops prev hu hb hnf
      rw [parseRun_append _ (iha 4 (by omega) (by omega) out ops prev hu
        (barrier_mono (by omega) hb) hnf)]
      have hcan : ∀ n ∈ pendE a 4, popsP ⟨3, true, 2⟩ n = true := by
        intro n hn
        obtain ⟨t, oi, h1, h2, h3⟩ := pendE_ops a 4 n hn
        subst h1
        simp [popsP, h2]
        omega
      have hstop : stopAt ⟨3, true, 2⟩ ops := stopAt_of_barrier _ 3 _ hb (by decide)
      have hpop := popOps_flushes ⟨3, true, 2⟩ (pendE a 4) ops (out ++ leadingE a 4) hcan hstop
      have hpt : parseTok ⟨out ++ leadingE a 4, pendE a 4 ++ ops, some (lastTokE a 4)⟩ .caret =
          .ok ⟨out ++ compileE a, .op "^" :: ops, some .caret⟩ := by
        rw [parseTok_caret, hpop, List.append_assoc, leadingE_pendE]
      rw [parseRun_cons _ hpt]
      rw [ihb 3 (by omega) (by omega) (out ++ compileE a) (.op "^" :: ops) (some .caret) rfl
        (barrier_op (t := "^") rfl (by decide) ops) (noFunc_cons_op hnf "^")]
      simp [leadingE, pendE, lastTokE, leadingC, pendC, lastTokC, List.append_assoc]
    by_cases hpar : precE (.pow a b) < p
    · have h1p : (3 : ℕ) < p := by simpa [precE] using hpar
      have ht : tokListE (.pow a b) p =
          .lparen :: (tokListE a 4 ++ .caret :: tokListE b 3) ++ [.rparen] := by
        simp [tokListE, parenT, h1p]
      rw [ht, parseRun_paren_wrap _ _ _ _ 3 bare (pendC_ne_paren _) out ops prev hnf]
      simp [leadingE, pendE, lastTokE, hpar, leadingC_pendC]
    · have hple : p ≤ 3 := by simp only [precE] at hpar; omega
      have ht : tokListE (.pow a b) p = tokListE a 4 ++ .caret :: tokListE b 3 := by
        simp [tokListE, parenT, show ¬ (3 < p) from by omega]
      rw [ht, bare out ops prev hu (barrier_mono hple hb) hnf]
      simp [leadingE, pendE, lastTokE, hpar]


/-- No pending operator is the "(" marker. -/
theorem pendE_ne_paren (e : Expr) (p : ℕ) : ∀ n ∈ pendE e p, n ≠ Node.op "(" := by
  intro n hn
  obtain ⟨t, oi, h1, h2, _⟩ := pendE_ops e p n hn
  subst h1
  intro hc
  injection hc with ht
  subst ht
  simp [OP] at h2

/-- The final flush succeeds and appends the stack when no "(" marker remains. -/
theorem flushOps_no_paren :
    ∀ (pend out : List Node), (∀ n ∈ pend, n ≠ Node.op "(") →
      flushOps pend out = .ok (out ++ pend) := by
  intro pend
  induction pend with
  | nil => intro out _; simp [flushOps]
  | cons n rest ih =>
    intro out hnp
    simp only [flushOps]
    rw [if_neg (hnp n (List.mem_cons_self n rest)),
      ih (out ++ [n]) (fun m hm => hnp m (List.mem_cons_of_mem n hm))]
    simp

/-- toRPN on the printed rendering of a well-formed expression yields exactly its
postfix compilation. -/
theorem toRPN_printE (e : Expr) (h : wfE e = true) :
    toRPN (printE e 1) = .ok (compileE e) := by
  have h2 := parseRun_printE e 1 le_rfl (by omega) [] [] none rfl trivial noFunc_nil
  simp only [List.nil_append, List.append_nil] at h2
  have h3 : flushOps (pendE e 1) (leadingE e 1) = .ok (compileE e) := by
    rw [flushOps_no_paren _ _ (pendE_ne_paren e 1), leadingE_pendE]
  simp only [toRPN, tokenize_printE e h, h2, h3]

/-- The node-evaluation loop processes an appended program sequentially. -/
theorem evalNodes_append (env : Env) :
    ∀ (xs ys : List Node) (st : List ℚ),
      evalNodes env (xs ++ ys) st =
        match evalNodes env xs st with
        | .ok st2 => evalNodes env ys st2
        | .error e => .error e := by
  intro xs
  induction xs with
  | nil => intro ys st; rfl
  | cons n rest ih =>
    intro ys st
    cases n with
    | num v => simpa only [List.cons_append, evalNodes] using ih ys (v :: st)
    | var s =>
      simp only [List.cons_append, evalNodes]
      cases hUF : UF s with
      | some f =>
        cases st with
        | nil => rfl
        | cons a st2 => exact ih ys (f a :: st2)
      | none =>
        cases hBF : BF s with
        | some g =>
          cases st with
          | nil => rfl
          | cons b st1 =>
            cases st1 with
            | nil => rfl
            | cons a st2 => exact ih ys (g a b :: st2)
        | none =>
          cases hlv : lookupVar env s with
          | some v => exact ih ys (v :: st)
          | none => rfl
    | op s =>
      simp only [List.cons_append, evalNodes]
      by_cases hlen : st.length < (if s = "u-" then 1 else 2)
      · rw [if_pos hlen, if_pos hlen]
      · rw [if_neg hlen, if_neg hlen]
        cases happ : applyOp s st with
        | error e => rfl
        | ok res => exact ih ys _
    | func s => simpa only [List.cons_append, evalNodes] using ih ys st
    | argSep => simpa only [List.cons_append, evalNodes] using ih ys st
    | assign => simpa only [List.cons_append, evalNodes] using ih ys st

/-- Evaluating the postfix compilation of a tree pushes exactly its reference value
onto the stack, or reports the reference error. -/
theorem compile_eval (env : Env) :
    ∀ (e : Expr) (st : List ℚ),
      evalNodes env (compileE e) st = (denoteE e).map (fun v => v :: st) := by
  intro e
  induction e with
  | num ds => intro st; rfl
  | neg a ih =>
    intro st
    rw [show compileE (.neg a) = compileE a ++ [.op "u-"] from rfl,
      evalNodes_append env _ _ st, ih st]
    cases hda : denoteE a with
    | error err => simp only [denoteE, hda]; rfl
    | ok x =>
      simp only [denoteE, hda]
      show evalNodes env [.op "u-"] (x :: st) = .ok (-x :: st)
      simp [evalNodes, applyOp]
  | add a b iha ihb =>
    intro st
    rw [show compileE (.add a b) = compileE a ++ (compileE b ++ [.op "+"]) from by
      simp [compileE], evalNodes_append env _ _ st, iha st]
    cases hda : denoteE a with
    | error err => simp only [denoteE, hda]; rfl
    | ok x =>
      simp only [denoteE, hda]
      show evalNodes env (compileE b ++ [.op "+"]) (x :: st) = _
      rw [evalNodes_append env _ _ (x :: st), ihb (x :: st)]
      cases hdb : denoteE b with
      | error err => rfl
      | ok y =>
        show evalNodes env [.op "+"] (y :: x :: st) = .ok ((x + y) :: st)
        simp [evalNodes, applyOp]
  | sub a b iha ihb =>
    intro st
    rw [show compileE (.sub a b) = compileE a ++ (compileE b ++ [.op "-"]) from by
      simp [compileE], evalNodes_append env _ _ st, iha st]
    cases hda : denoteE a with
    | error err => simp only [denoteE, hda]; rfl
    | ok x =>
      simp only [denoteE, hda]
      show evalNodes env (compileE b ++ [.op "-"]) (x :: st) = _
      rw [evalNodes_append env _ _ (x :: st), ihb (x :: st)]
      cases hdb : denoteE b with
      | error err => rfl
      | ok y =>
        show evalNodes env [.op "-"] (y :: x :: st) = .ok ((x - y) :: st)
        simp [evalNodes, applyOp]
  | mul a b iha ihb =>
    intro st
    rw [show compileE (.mul a b) = compileE a ++ (compileE b ++ [.op "*"]) from by
      simp [compileE], evalNodes_append env _ _ st, iha st]
    cases hda : denoteE a with
    | error err => simp only [denoteE, hda]; rfl
    | ok x =>
      simp only [denoteE, hda]
      show evalNodes env (compileE b ++ [.op "*"]) (x :: st) = _
      rw [evalNodes_append env _ _ (x :: st), ihb (x :: st)]
      cases hdb : denoteE b with
      | error err => rfl
      | ok y =>
        show evalNodes env [.op "*"] (y :: x :: st) = .ok ((x * y) :: st)
        simp [evalNodes, applyOp]
  | div a b iha ihb =>
    intro st
    rw [show compileE (.div a b) = compileE a ++ (compileE b ++ [.op "/"]) from by
      simp [compileE], evalNodes_append env _ _ st, iha st]
    cases hda : denoteE a with
    | error err => simp only [denoteE, hda]; rfl
    | ok x =>
      simp only [denoteE, hda]
      show evalNodes env (compileE b ++ [.op "/"]) (x :: st) = _
      rw [evalNodes_append env _ _ (x :: st), ihb (x :: st)]
      cases hdb : denoteE b with
      | error err => rfl
      | ok y =>
        show evalNodes env [.op "/"] (y :: x :: st) =
          Except.map (fun v => v :: st)
            (if y = 0 then .error .divisionByZero else .ok (x / y))
        by_cases hy : y = 0
        · simp [evalNodes, applyOp, hy]
          rw [if_neg (by omega)]
          rfl
        · simp [evalNodes, applyOp, hy]
          rw [if_neg (by omega)]
          rfl
  | pow a b iha ihb =>
    intro st
    rw [show compileE (.pow a b) = compileE a ++ (compileE b ++ [.op "^"]) from by
      simp [compileE], evalNodes_append env _ _ st, iha st]
    cases hda : denoteE a with
    | error err => simp only [denoteE, hda]; rfl
    | ok x =>
      simp only [denoteE, hda]
      show evalNodes env (compileE b ++ [.op "^"]) (x :: st) = _
      rw [evalNodes_append env _ _ (x :: st), ihb (x :: st)]
      cases hdb : denoteE b with
      | error err => rfl
      | ok y =>
        show evalNodes env [.op "^"] (y :: x :: st) = .ok (powQ x y :: st)
        simp [evalNodes, applyOp]

/-- A postfix compilation contains no Assignment node. -/
theorem hasAssign_compileE (e : Expr) : hasAssign (compileE e) = false := by
  induction e with
  | num ds => rfl
  | neg a ih =>
    simp only [hasAssign] at ih
    simp [hasAssign, compileE, ih]
  | add a b iha ihb =>
    simp only [hasAssign] at iha ihb
    simp [hasAssign, compileE, iha, ihb]
  | sub a b iha ihb =>
    simp only [hasAssign] at iha ihb
    simp [hasAssign, compileE, iha, ihb]
  | mul a b iha ihb =>
    simp only [hasAssign] at iha ihb
    simp [hasAssign, compileE, iha, ihb]
  | div a b iha ihb =>
    simp only [hasAssign] at iha ihb
    simp [hasAssign, compileE, iha, ihb]
  | pow a b iha ihb =>
    simp only [hasAssign] at iha ihb
    simp [hasAssign, compileE, iha, ihb]

/-- evalRPN on a postfix compilation returns the reference value or error and leaves
the environment untouched. -/
theorem evalRPN_compileE (env : Env) (e : Expr) :
    evalRPN (compileE e) env = (denoteE e, env) := by
  have hna : ¬ (hasAssign (compileE e) = true) := by simp [hasAssign_compileE e]
  unfold evalRPN
  rw [if_neg hna, compile_eval env e []]
  cases hd : denoteE e with
  | error err => rfl
  | ok v => rfl


/-- Characters contributed by an optional parenthesization. -/
theorem mem_paren {c : Char} {b : Bool} {l : List Char} (h : c ∈ paren b l) :
    c = '(' ∨ c = ')' ∨ c ∈ l := by
  cases b with
  | false => exact Or.inr (Or.inr h)
  | true =>
    simp only [paren, if_true] at h
    rcases List.mem_cons.mp h with h1 | h2
    · exact Or.inl h1
    · rcases List.mem_append.mp h2 with h3 | h4
      · exact Or.inr (Or.inr h3)
      · exact Or.inr (Or.inl (by simpa using h4))

/-- No character of a printed well-formed expression can start an identifier, so the
call normalizer has nothing to rewrite. -/
theorem printE_chars :
    ∀ (e : Expr), wfE e = true →
      ∀ (p : ℕ) (c : Char), c ∈ printE e p → isIdentStart c = false := by
  intro e
  induction e with
  | num ds =>
    intro h p c hc
    simp only [wfE, Bool.and_eq_true, List.all_eq_true] at h
    exact digit_not_identStart (h.2 c hc)
  | neg a ih =>
    intro h p c hc
    simp only [wfE] at h
    rcases mem_paren hc with rfl | rfl | h2
    · decide
    · decide
    · rcases List.mem_cons.mp h2 with rfl | h3
      · decide
      · exact ih h 4 c h3
  | add a b iha ihb =>
    intro h p c hc
    rw [wfE, Bool.and_eq_true] at h
    rcases mem_paren hc with rfl | rfl | h2
    · decide
    · decide
    · rcases List.mem_append.mp h2 with h3 | h4
      · exact iha h.1 1 c h3
      · rcases List.mem_cons.mp h4 with rfl | h5
        · decide
        · exact ihb h.2 2 c h5
  | sub a b iha ihb =>
    intro h p c hc
    rw [wfE, Bool.and_eq_true] at h
    rcases mem_paren hc with rfl | rfl | h2
    · decide
    · decide
    · rcases List.mem_append.mp h2 with h3 | h4
      · exact iha h.1 1 c h3
      · rcases List.mem_cons.mp h4 with rfl | h5
        · decide
        · exact ihb h.2 2 c h5
  | mul a b iha ihb =>
    intro h p c hc
    rw [wfE, Bool.and_eq_true] at h
    rcases mem_paren hc with rfl | rfl | h2
    · decide
    · decide
    · rcases List.mem_append.mp h2 with h3 | h4
      · exact iha h.1 2 c h3
      · rcases List.mem_cons.mp h4 with rfl | h5
        · decide
        · exact ihb h.2 3 c h5
  | div a b iha ihb =>
    intro h p c hc
    rw [wfE, Bool.and_eq_true] at h
    rcases mem_paren hc with rfl | rfl | h2
    · decide
    · decide
    · rcases List.mem_append.mp h2 with h3 | h4
      · exact iha h.1 2 c h3
      · rcases List.mem_cons.mp h4 with rfl | h5
        · decide
        · exact ihb h.2 3 c h5
  | pow a b iha ihb =>
    intro h p c hc
    rw [wfE, Bool.and_eq_true] at h
    rcases mem_paren hc with rfl | rfl | h2
    · decide
    · decide
    · rcases List.mem_append.mp h2 with h3 | h4
      · exact iha h.1 4 c h3
      · rcases List.mem_cons.mp h4 with rfl | h5
        · decide
        · exact ihb h.2 3 c h5

/-- The call normalizer leaves a line without identifier-start characters
unchanged. -/
theorem preAux_id :
    ∀ (l : List Char) (fuel : ℕ), l.length < fuel →
      (∀ c ∈ l, isIdentStart c = false) →
      preAux fuel l = .ok l := by
  intro l
  induction l with
  | nil =>
    intro fuel hf _
    cases fuel with
    | zero => simp at hf
    | succ n => rfl
  | cons c cs ih =>
    intro fuel hf hc
    cases fuel with
    | zero => simp at hf
    | succ n =>
      have hcc := hc c (List.mem_cons_self c cs)
      simp only [isIdentStart] at hcc
      simp only [preAux, hcc, Bool.false_eq_true, if_false]
      rw [ih n (by simp at hf; omega) (fun d hd => hc d (List.mem_cons_of_mem c hd))]

/-- preprocessFuncCalls is the identity on printed well-formed expressions. -/
theorem preprocess_printE (e : Expr) (h : wfE e = true) :
    preprocessFuncCalls (printE e 1) = .ok (printE e 1) := by
  rw [preprocessFuncCalls]
  exact preAux_id (printE e 1) _ (by omega) (printE_chars e h 1)


/-- applyOp never reports InvalidAssignment: its only errors are division by zero
and the unknown-operator fallthrough. -/
theorem applyOp_ne_invalidAssign :
    ∀ (s : String) (st : List ℚ), applyOp s st ≠ .error .invalidAssignment := by
  intro s st h
  unfold applyOp at h
  repeat' split at h
  all_goals simp at h

/-- The node-evaluation loop never reports InvalidAssignment: its errors are missing
arguments, undefined variables, stack underflow, and the applyOp errors. -/
theorem evalNodes_ne_invalidAssign :
    ∀ (nodes : List Node) (env : Env) (st : List ℚ),
      evalNodes env nodes st ≠ .error .invalidAssignment := by
  intro nodes
  induction nodes with
  | nil => intro env st h; simp [evalNodes] at h
  | cons n rest ih =>
    intro env st h
    match n with
    | .num v => exact ih env (v :: st) (by simpa [evalNodes] using h)
    | .var s =>
      simp only [evalNodes] at h
      split at h
      · split at h
        · simp at h
        · exact ih _ _ h
      · split at h
        · split at h
          · exact ih _ _ h
          · simp at h
        · split at h
          · exact ih _ _ h
          · simp at h
    | .op s =>
      simp only [evalNodes] at h
      generalize hn : (if s = "u-" then (1 : ℕ) else 2) = need at h
      split at h
      · simp at h
      · split at h
        · next e heq =>
          cases h
          exact applyOp_ne_invalidAssign _ _ heq
        · exact ih _ _ h
    | .func s => exact ih env st (by simpa [evalNodes] using h)
    | .argSep => exact ih env st (by simpa [evalNodes] using h)
    | .assign => exact ih env st (by simpa [evalNodes] using h)

/-- evalRPN either returns the environment it was given, or succeeds and writes one
binding. -/
theorem evalRPN_env_cases :
    ∀ (rpn : List Node) (env : Env), (evalRPN rpn env).2 = env ∨
      ∃ v name, (evalRPN rpn env).1 = .ok v ∧ (evalRPN rpn env).2 = setVar env name v := by
  intro rpn env
  unfold evalRPN
  split
  · split
    · split
      · left; rfl
      · split
        · left; rfl
        · split
          · right; exact ⟨_, _, rfl, rfl⟩
          · left; rfl
    · left; rfl
  · split
    · left; rfl
    · split
      · left; rfl
      · left; rfl

/-- Whenever evalRPN reports an error, it returns the environment it was given. -/
theorem evalRPN_error_env :
    ∀ (rpn : List Node) (env : Env) (e : Err),
      (evalRPN rpn env).1 = .error e → (evalRPN rpn env).2 = env := by
  intro rpn env e h
  rcases evalRPN_env_cases rpn env with h2 | ⟨v, name, h1, h2⟩
  · exact h2
  · rw [h] at h1
    cases h1

/-! Claim theorems. -/

/-- Claim C1 (code bug): the spec says an assignment line name = expr stores the value
and returns it, but toRPN emits the KAssign node after the right-hand side (the marker
is pushed on the operator stack and only the final flush pops it), while evalRPN
requires it at index 1; every normal assignment line therefore fails with
InvalidAssignment and leaves the environment untouched.  The last conjunct shows the
evaluator on the node shape it expects does store and return the value, pinning the
mismatch between the two stages. -/
theorem C1_assignment_pipeline_bug :
    toRPN "x = 5".data = .ok [.var "x", .num 5, .assign] ∧
    evaluate "x = 5".data env0 = (.error .invalidAssignment, env0) ∧
    evalRPN [.var "x", .assign, .num 5] env0 = (.ok 5, setVar env0 "x" 5) :=
  ⟨by decide, by decide, by decide⟩

/-- Claim C5: the division operator fails with DivisionByZero exactly when its right
operand (the stack top) is zero and otherwise returns the quotient; 1/0 fails with
DivisionByZero through the whole pipeline while 0/1 returns 0. -/
theorem C5_division_by_zero :
    (∀ (a b : ℚ) (rest : List ℚ),
      applyOp "/" (b :: a :: rest) = if b = 0 then .error .divisionByZero else .ok (a / b)) ∧
    evaluate "1/0".data env0 = (.error .divisionByZero, env0) ∧
    evaluate "0/1".data env0 = (.ok 0, env0) :=
  ⟨fun _ _ _ => rfl, by decide, by decide⟩

/-- Claim C8: the call normalizer copies nested-call arguments as raw substrings, so
pow(2, sqrt(9)) is rewritten to "(2  sqrt(9)) pow", which parses to the postfix
sequence 2 sqrt 9 pow and evaluates as pow(sqrt(2), 9) — some other result, not 8. -/
theorem C8_nested_call_misparse :
    preprocessFuncCalls "pow(2, sqrt(9))".data = .ok "(2  sqrt(9)) pow".data ∧
    toRPN "(2  sqrt(9)) pow".data = .ok [.num 2, .var "sqrt", .num 9, .var "pow"] ∧
    evaluate "pow(2, sqrt(9))".data env0 = (.ok (powQ (sqrtQ 2) 9), env0) ∧
    powQ (sqrtQ 2) 9 ≠ 8 :=
  ⟨by decide, by decide, by decide, by decide⟩

/-- Claim C9: an exponent marker is consumed as part of the number token exactly when
at least one digit follows it (after an optional sign); otherwise the scan consumes
nothing and leaves the marker in the rest.  Hence 1e lexes to the number 1 followed
by the identifier e, and 1e+2 lexes to the single number 100. -/
theorem C9_exponent_consumption :
    (∀ (m : Char) (rest : List Char), m = 'e' ∨ m = 'E' →
      (((scanExpPart (m :: rest)).1 = []) ↔ hasExpDigit rest = false) ∧
      ((scanExpPart (m :: rest)).1 = [] → scanExpPart (m :: rest) = ([], m :: rest))) ∧
    tokenize "1e".data = .ok [.number 1, .ident "e"] ∧
    tokenize "1e+2".data = .ok [.number 100] := by
  refine ⟨?_, by decide, by decide⟩
  intro m rest hm
  have hmarker : (m == 'e' || m == 'E') = true := by
    rcases hm with h | h <;> simp [h]
  match rest with
  | [] =>
    simp [scanExpPart, hasExpDigit, hmarker]
  | s :: rr =>
    simp only [scanExpPart, hasExpDigit, hmarker, if_true]
    by_cases hsign : (s == '+' || s == '-') = true
    · simp only [hsign, if_true]
      match rr with
      | [] => simp
      | d :: dd =>
        by_cases hd : isdigitC d = true
        · simp [List.takeWhile, hd]
        · simp [List.takeWhile, hd, Bool.not_eq_true _ ▸ hd]
    · simp only [hsign, if_false]
      by_cases hd : isdigitC s = true
      · simp [List.takeWhile, hd]
      · simp [List.takeWhile, hd]

/-- Witness for claim C9's general part at the input e x: no digit follows the
marker, so nothing is consumed. -/
theorem C9_exponent_consumption_witness :
    (scanExpPart ['e', 'x']).1 = [] ∧ scanExpPart ['e', 'x'] = ([], ['e', 'x']) := by
  have h := C9_exponent_consumption.1 'e' ['x'] (Or.inl rfl)
  have h1 : (scanExpPart ['e', 'x']).1 = [] := h.1.mpr (by decide)
  exact ⟨h1, h.2 h1⟩

/-- Claim C10: a node sequence without an Assignment node never mutates the
environment — the evaluator returns the environment it was given, on success and on
every error alike. -/
theorem C10_no_assign_no_mutation :
    ∀ (rpn : List Node) (env : Env), hasAssign rpn = false → (evalRPN rpn env).2 = env := by
  intro rpn env h
  unfold evalRPN
  rw [h]
  simp only [Bool.false_eq_true, if_false]
  split
  · rfl
  · split
    · rfl
    · rfl

/-- Witness for claim C10 at the one-node sequence 1. -/
theorem C10_no_assign_no_mutation_witness : (evalRPN [Node.num 1] env0).2 = env0 :=
  C10_no_assign_no_mutation [Node.num 1] env0 (by decide)

/-- Claim C7: a failing line leaves the environment exactly as it was — every error
path of the pipeline returns the unchanged environment (the store is only written
after the whole right-hand side of an assignment evaluated to a single value). -/
theorem C7_failed_line_preserves_env :
    ∀ (line : List Char) (env : Env) (e : Err) (env2 : Env),
      evaluate line env = (.error e, env2) → env2 = env := by
  intro line env e env2 h
  unfold evaluate at h
  rcases hpre : preprocessFuncCalls line with epre | pre
  · simp only [hpre] at h
    cases h
    rfl
  · simp only [hpre] at h
    rcases hrpn : toRPN pre with erpn | rpn
    · simp only [hrpn] at h
      cases h
      rfl
    · simp only [hrpn] at h
      have h1 : (evalRPN rpn env).1 = .error e := by rw [h]
      have h2 := evalRPN_error_env rpn env e h1
      rw [h] at h2
      exact h2

/-- Witness for claim C7 at the failing line 1/0. -/
theorem C7_failed_line_preserves_env_witness : (evaluate "1/0".data env0).2 = env0 :=
  C7_failed_line_preserves_env "1/0".data env0 .divisionByZero (evaluate "1/0".data env0).2
    (by decide)

/-- Counterexample to claim C6 as stated: a node sequence that starts with the
expected Variable-Assignment prefix but carries a second Assignment node among the
right-hand-side nodes is claimed to fail with InvalidAssignment; the evaluator
instead ignores the extra marker, succeeds with 2, and stores it. -/
theorem C6_counterexample :
    hasAssign [.var "x", .assign, .num 2, .assign] = true ∧
    evalRPN [.var "x", .assign, .num 2, .assign] env0 = (.ok 2, setVar env0 "x" 2) :=
  ⟨by decide, by decide⟩

/-- Claim C6 as amended: when an Assignment node is present, the evaluator fails with
InvalidAssignment exactly when the sequence does not start with a Variable node
followed by an Assignment node followed by at least one more node; Assignment nodes
among the right-hand-side nodes are ignored rather than rejected. -/
theorem C6_assignment_shape :
    ∀ (rpn : List Node) (env : Env), hasAssign rpn = true →
      ((evalRPN rpn env).1 = .error .invalidAssignment ↔ assignShape rpn = false) := by
  intro rpn env h
  match rpn with
  | [] => simp [hasAssign] at h
  | .var name :: .assign :: [] =>
    simp [evalRPN, h, assignShape]
  | .var name :: .assign :: r :: rest =>
    simp only [evalRPN, h, if_true, List.isEmpty_cons, Bool.false_eq_true, if_false,
      assignShape]
    constructor
    · intro hh
      exfalso
      split at hh
      · next e heq =>
        simp only [Except.error.injEq] at hh
        exact evalNodes_ne_invalidAssign (r :: rest) env [] (by rw [heq, hh])
      · split at hh
        · simp at hh
        · simp at hh
    · intro hh
      simp at hh
  | .num v :: tl =>
    simp [evalRPN, h, assignShape]
  | .op s :: tl =>
    simp [evalRPN, h, assignShape]
  | .func s :: tl =>
    simp [evalRPN, h, assignShape]
  | .argSep :: tl =>
    simp [evalRPN, h, assignShape]
  | .assign :: tl =>
    simp [evalRPN, h, assignShape]
  | .var name :: .num v :: tl =>
    simp [evalRPN, h, assignShape]
  | .var name :: .var s :: tl =>
    simp [evalRPN, h, assignShape]
  | .var name :: .op s :: tl =>
    simp [evalRPN, h, assignShape]
  | .var name :: .func s :: tl =>
    simp [evalRPN, h, assignShape]
  | .var name :: .argSep :: tl =>
    simp [evalRPN, h, assignShape]
  | .var name :: [] =>
    simp [hasAssign] at h

/-- Witness for claim C6's amended theorem: a lone Assignment node fails the shape
check and reports InvalidAssignment. -/
theorem C6_assignment_shape_witness :
    (evalRPN [Node.assign] env0).1 = .error .invalidAssignment ∧
    assignShape [Node.assign] = false := by
  have h := C6_assignment_shape [Node.assign] env0 (by decide)
  exact ⟨h.mpr (by decide), by decide⟩

/-- Claim C4: a Variable node resolves against the unary function table first, then
the binary table, then the environment (so a function name shadows a variable of the
same name, whatever the environment holds), and a name in none of the three fails
with UndefinedVariable; concretely, with sin bound to 5 in the environment, sin(1)
still applies the table's sine function, whose value at 1 is not 5. -/
theorem C4_function_table_shadowing :
    (∀ (name : String) (f : ℚ → ℚ) (env : Env) (a : ℚ) (st2 : List ℚ) (rest : List Node),
      UF name = some f →
      evalNodes env (.var name :: rest) (a :: st2) = evalNodes env rest (f a :: st2)) ∧
    (∀ (name : String) (g : ℚ → ℚ → ℚ) (env : Env) (b a : ℚ) (st2 : List ℚ)
        (rest : List Node),
      UF name = none → BF name = some g →
      evalNodes env (.var name :: rest) (b :: a :: st2) = evalNodes env rest (g a b :: st2)) ∧
    (∀ (name : String) (env : Env) (st : List ℚ) (rest : List Node),
      UF name = none → BF name = none → lookupVar env name = none →
      evalNodes env (.var name :: rest) st = .error (.undefinedVariable name)) ∧
    (evaluate "sin(1)".data ⟨[("sin", 5)], 10⟩ = (.ok (sinQ 1), ⟨[("sin", 5)], 10⟩) ∧
      sinQ 1 ≠ 5) := by
  refine ⟨?_, ?_, ?_, by decide, by decide⟩
  · intro name f env a st2 rest hf
    simp [evalNodes, hf]
  · intro name g env b a st2 rest hf hg
    simp [evalNodes, hf, hg]
  · intro name env st rest hf hg hv
    cases st with
    | nil => simp [evalNodes, hf, hg, hv]
    | cons x xs =>
      cases xs with
      | nil => simp [evalNodes, hf, hg, hv]
      | cons y ys => simp [evalNodes, hf, hg, hv]

/-- Witness for claim C4: the three resolution clauses applied at sin, pow and a
fresh name against the default environment. -/
theorem C4_function_table_shadowing_witness :
    evalNodes env0 [.var "sin"] [1] = .ok [sinQ 1] ∧
    evalNodes env0 [.var "pow"] [3, 2] = .ok [powQ 2 3] ∧
    evalNodes env0 [.var "nosuch"] [] = .error (.undefinedVariable "nosuch") := by
  refine ⟨?_, ?_, ?_⟩
  · rw [C4_function_table_shadowing.1 "sin" sinQ env0 1 [] [] rfl]
    rfl
  · rw [C4_function_table_shadowing.2.1 "pow" powQ env0 3 2 [] [] rfl rfl]
    rfl
  · rw [C4_function_table_shadowing.2.2.1 "nosuch" env0 [] [] rfl rfl (by decide)]

/-- Claim C3: a minus token is parsed as unary exactly when the previous token is
absent, a left paren, a comma, the assignment sign, or another operator; the unary
symbol is a distinct OP entry, right-associative with precedence 4, strictly above
every other operator; and concretely -3+2 evaluates to -1, 3-2 to 1, and 2^-1 to
one half. -/
theorem C3_unary_minus :
    (∀ prev : Option Tok,
      isUnaryCtx prev = true ↔
        prev = none ∨ prev = some .lparen ∨ prev = some .comma ∨ prev = some .assign ∨
          ∃ t, prev = some t ∧ isOpTok t = true) ∧
    (∀ (out ops : List Node) (prev : Option Tok),
      parseTok ⟨out, ops, prev⟩ .minus =
        .ok ⟨(popOps (if isUnaryCtx prev then ⟨4, true, 1⟩ else ⟨1, false, 2⟩) ops out).2,
          .op (if isUnaryCtx prev then "u-" else "-") ::
            (popOps (if isUnaryCtx prev then ⟨4, true, 1⟩ else ⟨1, false, 2⟩) ops out).1,
          some .minus⟩) ∧
    OP "u-" = some ⟨4, true, 1⟩ ∧
    (∀ (s : String) (oi : OpInfo), OP s = some oi → s ≠ "u-" → oi.prec < 4) ∧
    evaluate "-3+2".data env0 = (.ok (-1), env0) ∧
    evaluate "3-2".data env0 = (.ok 1, env0) ∧
    evaluate "2^-1".data env0 = (.ok (1 / 2), env0) := by
  refine ⟨?_, ?_, by decide, ?_, by decide, by decide, by decide⟩
  · intro prev
    match prev with
    | none => simp [isUnaryCtx]
    | some t => cases t <;> simp [isUnaryCtx, isOpTok]
  · intro out ops prev
    by_cases h : isUnaryCtx prev = true
    · simp [parseTok, opSym, h, OP]
    · simp only [Bool.not_eq_true] at h
      simp [parseTok, opSym, h, OP]
  · intro s oi h hs
    unfold OP at h
    split at h
    · cases h; decide
    · cases h; decide
    · cases h; decide
    · cases h; decide
    · cases h; decide
    · simp_all
    · cases h

/-- Witness for claim C3's quantified parts: the context test at a previous star
token, the parse step at start of line, and the precedence bound at the caret. -/
theorem C3_unary_minus_witness :
    isUnaryCtx (some .star) = true ∧
    parseTok ⟨[], [], none⟩ .minus = .ok ⟨[], [.op "u-"], some .minus⟩ ∧
    (3 : ℕ) < 4 := by
  refine ⟨?_, ?_, by decide⟩
  · exact (C3_unary_minus.1 (some .star)).mpr (Or.inr (Or.inr (Or.inr (Or.inr
      ⟨.star, rfl, by decide⟩))))
  · have h := C3_unary_minus.2.1 [] [] none
    simpa [popOps, isUnaryCtx] using h

/-- C2: counterexample to the claimed precedence order.  The claim puts ^ above
unary minus, under which the line -2^2 denotes the tree neg(pow 2 2) (printClaimed
renders that tree without parentheses) with value -4; the code's pipeline instead
evaluates the line to 4, because the OP table gives u- precedence 4, strictly above
the caret's 3. -/
theorem C2_counterexample :
    printClaimed (.neg (.pow (.num ['2']) (.num ['2']))) 1 = '-' :: '2' :: '^' :: ['2'] ∧
    denoteE (.neg (.pow (.num ['2']) (.num ['2']))) = .ok (-4) ∧
    evaluate ('-' :: '2' :: '^' :: ['2']) env0 = (.ok 4, env0) ∧
    (4 : ℚ) ≠ -4 := by
  refine ⟨rfl, by decide, by decide, by decide⟩

/-- C2 (amended): for every well-formed variable-free arithmetic expression, the
full pipeline computes exactly the reference value of its tree under the code's
actual precedence order - unary minus highest (4, right-associative), then ^ (3,
right-associative), then * and / (2, left-associative), then + and - (1,
left-associative) - and leaves the environment unchanged.  printE renders the tree
with the minimal parentheses this order requires, so the statement covers every
variable-free line whose standard reading under that order is e. -/
theorem C2_precedence_amended (e : Expr) (env : Env) (h : wfE e = true) :
    evaluate (printE e 1) env = (denoteE e, env) := by
  simp only [evaluate, preprocess_printE e h, toRPN_printE e h]
  exact evalRPN_compileE env e

/-- Witness for C2 (amended): the expression (-2)^2, rendered -2^2 by printE since
unary minus outranks the caret, evaluates to 4 through the full pipeline. -/
theorem C2_precedence_amended_witness :
    wfE (Expr.pow (.neg (.num ['2'])) (.num ['2'])) = true ∧
    evaluate (printE (Expr.pow (.neg (.num ['2'])) (.num ['2'])) 1) env0 =
      (.ok 4, env0) := by
  refine ⟨by decide, ?_⟩
  rw [C2_precedence_amended (Expr.pow (.neg (.num ['2'])) (.num ['2'])) env0 (by decide)]
  decide

end SuperCalc
